import Mathlib

/-!
Verification of the response-contract parsing and session-state layer of the
Startup Idea Lab single-page application (`src/App.tsx`).

The app's logic is embedded shallowly:

* Text is modelled as `List Char` (`Chars`); JavaScript string helpers used by
  the code (`trim`, `startsWith`, `replace` with the two fence regexes, the
  greedy `match(/\{[\s\S]*\}/)`) are reproduced as executable functions.
* `JSON.parse` is modelled by a fuel-based recursive-descent parser `jsonParse`
  over the RFC 8259 grammar (strict number syntax, string escapes, last-wins
  duplicate object keys, whitespace, full-input consumption).  Numbers are kept
  as their lexed token (the app never computes with parsed numbers), and a
  `\uXXXX` escape naming a lone surrogate is rejected (Lean `Char` holds only
  scalar values).  The message of a `JSON.parse` syntax error is
  engine-defined, so it is modelled as an environment-supplied function of the
  offending substring.
* `JSON.stringify` is modelled by `jsonStr` (compact form, shorthand escapes,
  `\u00XX` for remaining control characters).  The engine serializes the
  *double* a numeral was parsed to, not the numeral: binary64 arithmetic is
  outside the model, so `jsonStr` takes the engine's number semantics — the
  numeral-to-double conversion `den`, the finiteness test `fin` and the
  `Number::toString` formatting `out` — as parameters, and emits `null` for a
  non-finite stored value (`1e999` overflows to `Infinity`, which
  `JSON.stringify` renders as `null`).
* The two async round trips `generateAIIdea` / `evaluateAIIdea` are modelled
  as pure state transformers over `SessionState`, taking an environment record
  holding the outcomes of the external calls (connection test, model call) and
  the engine's parse-error message function.
-/

namespace App

set_option maxHeartbeats 1000000

set_option maxRecDepth 4000

/-- Text, as a list of characters (JS strings, order-preserving). -/
abbrev Chars := List Char

/-- Shorthand to write character-list literals. -/
def txt (s : String) : Chars := s.data

/-! ### JavaScript string helpers used by the source -/

/-- Whitespace recognised by JavaScript `String.prototype.trim` (the common
ASCII class plus NBSP; the exotic Unicode space points the app never sees are
omitted). -/
def jsWhitespace (c : Char) : Bool :=
  c == ' ' || c == '\t' || c == '\n' || c == '\r' || c == '\x0b' || c == '\x0c' || c == '\xa0'

/-- `text.trim()`: drop leading and trailing whitespace. -/
def jsTrim (s : Chars) : Chars :=
  ((s.dropWhile jsWhitespace).reverse.dropWhile jsWhitespace).reverse

/-- `text.startsWith(pat)`. -/
def listStartsWith : Chars → Chars → Bool
  | [], _ => true
  | _ :: _, [] => false
  | p :: ps, c :: rs => p == c && listStartsWith ps rs

/-- `text.endsWith(pat)`. -/
def listEndsWith (pat s : Chars) : Bool :=
  listStartsWith pat.reverse s.reverse

/-- `text.includes(pat)`: some occurrence of `pat` inside `s`. -/
def listContains (pat : Chars) : Chars → Bool
  | [] => pat.isEmpty
  | c :: r => listStartsWith pat (c :: r) || listContains pat r

/-- `text.replace(pat, '')` for a plain-string pattern: remove the first
occurrence of `pat`, if any (used for `'API Connection Failed: '`). -/
def removeFirstOcc (pat : Chars) : Chars → Chars
  | [] => []
  | c :: r =>
    if listStartsWith pat (c :: r) then (c :: r).drop pat.length
    else c :: removeFirstOcc pat r

/-! ### Fence stripping (`App.tsx` lines 137-144 and 274-281)

`cleanedText.replace(/```json\n?/, '')` removes the first occurrence of the
marker together with one following newline when present;
`.replace(/\n?```$/, '')` removes a final triple backtick together with one
preceding newline (anchored at the very end; JS `$` without `/m`). -/

/-- `text.replace(/PAT\n?/, '')` where `PAT` is a plain marker string. -/
def removeOpenFence (pat : Chars) : Chars → Chars
  | [] => []
  | c :: r =>
    if listStartsWith pat (c :: r) then
      match (c :: r).drop pat.length with
      | '\n' :: r2 => r2
      | r2 => r2
    else c :: removeOpenFence pat r

/-- `text.replace(/\n?```$/, '')`. -/
def removeCloseFence (s : Chars) : Chars :=
  if listEndsWith (txt "```") s then
    let t := s.take (s.length - 3)
    match t.getLast? with
    | some '\n' => t.dropLast
    | _ => t
  else s

/-- The two-branch markdown-fence removal applied to the trimmed response
text: a ```` ```json ````-tagged fence takes priority, else a generic
```` ``` ```` fence, else the text is untouched. -/
def stripCodeFences (s : Chars) : Chars :=
  if listStartsWith (txt "```json") s then
    removeCloseFence (removeOpenFence (txt "```json") s)
  else if listStartsWith (txt "```") s then
    removeCloseFence (removeOpenFence (txt "```") s)
  else s

/-- Lines 137-144: `let cleanedText = text.trim();` followed by the fence
removal. -/
def cleanResponse (raw : Chars) : Chars :=
  stripCodeFences (jsTrim raw)

/-! ### Brace slice (`cleanedText.match(/\{[\s\S]*\}/)`, lines 147 and 284)

The greedy regex matches from the first `{` of the text through the last `}`,
provided that `}` lies after that `{`; otherwise there is no match. -/

/-- The span of `text` from its first `{` through its last `}` (`none` when no
such two-character-or-longer span exists), as matched by `/\{[\s\S]*\}/`. -/
def jsonSlice (s : Chars) : Option Chars :=
  let t := s.dropWhile (fun c => c != '{')
  let u := (t.reverse.dropWhile (fun c => c != '}')).reverse
  if 2 ≤ u.length then some u else none

/-! ### JSON values

A JSON number is kept as its lexed token, split into the grammar's parts
(sign, integer digits, optional fraction digits, optional exponent); the app
displays parsed numbers but never computes with them, so the token is the
faithful observable. -/

/-- The parts of a JSON number token: `-? int (. frac)? ([eE] sign? digits)?`.
The exponent sign is `none` when absent, `some true` for `-`, `some false`
for `+`. -/
structure NumTok where
  neg : Bool
  ip : Chars
  fp : Option Chars
  ep : Option (Option Bool × Chars)
deriving DecidableEq, Repr

/-- A JSON value as produced by `JSON.parse`: object member lists keep
insertion order and (by construction in the parser) carry no duplicate key. -/
inductive Json where
  | null
  | bool (b : Bool)
  | num (t : NumTok)
  | str (s : Chars)
  | arr (xs : List Json)
  | obj (kvs : List (Chars × Json))

/-- First binding of key `f` in a member list (member lists built by the
parser have unique keys, so first match is the binding). -/
def getField (o : List (Chars × Json)) (f : Chars) : Option Json :=
  match o with
  | [] => none
  | (k, v) :: t => if k = f then some v else getField t f

/-- JavaScript object-literal insertion: an existing key keeps its position
and takes the new value, a new key is appended.  This is how repeated keys in
a JSON text collapse under `JSON.parse` (last value wins, first position
kept). -/
def insertField (o : List (Chars × Json)) (k : Chars) (v : Json) :
    List (Chars × Json) :=
  match o with
  | [] => [(k, v)]
  | (k', v') :: t => if k' = k then (k, v) :: t else (k', v') :: insertField t k v

/-- Collapse a raw member list the way `JSON.parse` builds its object. -/
def collapseFields (ms : List (Chars × Json)) : List (Chars × Json) :=
  ms.foldl (fun acc kv => insertField acc kv.1 kv.2) []

/-- JavaScript property access `data[f]` on a parsed JSON value: a binding
only when the value is an object holding the key (the app only ever reaches
this with an object). -/
def getFieldJ (j : Json) (f : Chars) : Option Json :=
  match j with
  | .obj o => getField o f
  | _ => none

/-! ### The `JSON.parse` model

A total fuel-based recursive-descent parser for RFC 8259, following
ECMAScript `JSON.parse`: strict number grammar (no leading zeros, a fraction
or exponent must have digits), the eight string escapes plus `\uXXXX`,
insignificant whitespace (space, tab, LF, CR), duplicate keys collapsing
last-wins, and the whole input consumed.  `jsonParse` hands the parser fuel
`length + 1`; a run of the grammar consumes at least one character per two
units of fuel spent and every accepted input closes its brackets, so this
fuel never cuts off an input `JSON.parse` accepts. -/

/-- JSON insignificant whitespace. -/
def jsonWs (c : Char) : Bool :=
  c == ' ' || c == '\t' || c == '\n' || c == '\r'

/-- Skip insignificant whitespace. -/
def skipWs (s : Chars) : Chars := s.dropWhile jsonWs

/-- The value of a hex digit, for `\uXXXX` escapes. -/
def hexDigit? (c : Char) : Option Nat :=
  if c.isDigit then
    some (c.toNat - '0'.toNat)
  else if 'a' ≤ c && c ≤ 'f' then
    some (10 + (c.toNat - 'a'.toNat))
  else if 'A' ≤ c && c ≤ 'F' then
    some (10 + (c.toNat - 'A'.toNat))
  else
    none

/-- The body of a JSON string after its opening quote: unescape up to the
closing quote, rejecting raw control characters. -/
def parseStringBody : Chars → Option (Chars × Chars)
  | [] => none
  | c :: r =>
    if c = '"' then some ([], r)
    else if c = '\\' then
      match r with
      | [] => none
      | e :: r2 =>
        if e = '"' then (parseStringBody r2).map (fun p => ('"' :: p.1, p.2))
        else if e = '\\' then (parseStringBody r2).map (fun p => ('\\' :: p.1, p.2))
        else if e = '/' then (parseStringBody r2).map (fun p => ('/' :: p.1, p.2))
        else if e = 'b' then (parseStringBody r2).map (fun p => ('\x08' :: p.1, p.2))
        else if e = 'f' then (parseStringBody r2).map (fun p => ('\x0c' :: p.1, p.2))
        else if e = 'n' then (parseStringBody r2).map (fun p => ('\n' :: p.1, p.2))
        else if e = 'r' then (parseStringBody r2).map (fun p => ('\r' :: p.1, p.2))
        else if e = 't' then (parseStringBody r2).map (fun p => ('\t' :: p.1, p.2))
        else if e = 'u' then
          match r2 with
          | h1 :: h2 :: h3 :: h4 :: r3 =>
            match hexDigit? h1, hexDigit? h2, hexDigit? h3, hexDigit? h4 with
            | some a, some b, some c', some d =>
              let code := ((a * 16 + b) * 16 + c') * 16 + d
              if code.isValidChar then
                (parseStringBody r3).map (fun p => (Char.ofNat code :: p.1, p.2))
              else none
            | _, _, _, _ => none
          | _ => none
        else none
    else if c.toNat < 0x20 then none
    else (parseStringBody r).map (fun p => (c :: p.1, p.2))

/-- The exponent's digits (with optional sign) after the `e`/`E` marker. -/
def parseExpTail (neg : Bool) (ip : Chars) (fp : Option Chars) (r : Chars) :
    Option (NumTok × Chars) :=
  let (sg, r1) : Option Bool × Chars :=
    match r with
    | '+' :: r' => (some false, r')
    | '-' :: r' => (some true, r')
    | _ => (none, r)
  let ds := r1.takeWhile Char.isDigit
  if ds.isEmpty then none
  else some (⟨neg, ip, fp, some (sg, ds)⟩, r1.dropWhile Char.isDigit)

/-- An optional exponent part. -/
def parseExp (neg : Bool) (ip : Chars) (fp : Option Chars) (s1 : Chars) :
    Option (NumTok × Chars) :=
  match s1 with
  | 'e' :: r => parseExpTail neg ip fp r
  | 'E' :: r => parseExpTail neg ip fp r
  | _ => some (⟨neg, ip, fp, none⟩, s1)

/-- After the integer part: optional fraction (digits required), then
optional exponent — RFC 8259 strict. -/
def parseNumTail (neg : Bool) (ip : Chars) (s : Chars) : Option (NumTok × Chars) :=
  match s with
  | '.' :: r =>
    let ds := r.takeWhile Char.isDigit
    if ds.isEmpty then none
    else parseExp neg ip (some ds) (r.dropWhile Char.isDigit)
  | _ => parseExp neg ip none s

/-- A JSON number token: optional `-`, then `0` alone or a nonzero-led digit
run, then optional fraction and exponent. -/
def parseNum (s : Chars) : Option (NumTok × Chars) :=
  match s with
  | [] => none
  | c :: r =>
    if c = '-' then
      match r with
      | [] => none
      | c1 :: r1 =>
        if c1 = '0' then parseNumTail true ['0'] r1
        else if c1.isDigit then
          parseNumTail true (c1 :: r1.takeWhile Char.isDigit) (r1.dropWhile Char.isDigit)
        else none
    else if c = '0' then parseNumTail false ['0'] r
    else if c.isDigit then
      parseNumTail false (c :: r.takeWhile Char.isDigit) (r.dropWhile Char.isDigit)
    else none

mutual
/-- One JSON value at the head of the input (no leading-whitespace skip; the
call sites skip).  Fuel only bounds recursion depth. -/
def parseVal : Nat → Chars → Option (Json × Chars)
  | 0, _ => none
  | fuel + 1, s =>
    match s with
    | '{' :: r =>
      (match skipWs r with
       | '}' :: r2 => some (.obj [], r2)
       | r2 => (parseFields fuel r2).map (fun p => (Json.obj (collapseFields p.1), p.2)))
    | '[' :: r =>
      (match skipWs r with
       | ']' :: r2 => some (.arr [], r2)
       | r2 => (parseItems fuel r2).map (fun p => (Json.arr p.1, p.2)))
    | '"' :: r => (parseStringBody r).map (fun p => (Json.str p.1, p.2))
    | 'n' :: 'u' :: 'l' :: 'l' :: r => some (.null, r)
    | 't' :: 'r' :: 'u' :: 'e' :: r => some (.bool true, r)
    | 'f' :: 'a' :: 'l' :: 's' :: 'e' :: r => some (.bool false, r)
    | s' => (parseNum s').map (fun p => (Json.num p.1, p.2))

/-- One-or-more comma-separated array items, ending at `]` (the empty array
is handled in `parseVal`). -/
def parseItems : Nat → Chars → Option (List Json × Chars)
  | 0, _ => none
  | fuel + 1, s =>
    match parseVal fuel s with
    | none => none
    | some (v, r) =>
      match skipWs r with
      | ',' :: r2 => (parseItems fuel (skipWs r2)).map (fun p => (v :: p.1, p.2))
      | ']' :: r2 => some ([v], r2)
      | _ => none

/-- One-or-more `"key": value` members, ending at `}` (the empty object is
handled in `parseVal`). -/
def parseFields : Nat → Chars → Option (List (Chars × Json) × Chars)
  | 0, _ => none
  | fuel + 1, s =>
    match s with
    | '"' :: r =>
      (match parseStringBody r with
       | none => none
       | some (k, r1) =>
         match skipWs r1 with
         | ':' :: r2 =>
           (match parseVal fuel (skipWs r2) with
            | none => none
            | some (v, r3) =>
              match skipWs r3 with
              | ',' :: r4 => (parseFields fuel (skipWs r4)).map (fun p => ((k, v) :: p.1, p.2))
              | '}' :: r4 => some ([(k, v)], r4)
              | _ => none)
         | _ => none)
    | _ => none
end

/-- `JSON.parse(s)`: one JSON value surrounded only by whitespace, else
failure (the engine's `SyntaxError` message is modelled separately, as an
environment-supplied function of the input). -/
def jsonParse (s : Chars) : Option Json :=
  match parseVal (s.length + 1) (skipWs s) with
  | some (v, rest) => if skipWs rest = [] then some v else none
  | none => none

/-! ### The `JSON.stringify` model

Compact form (no inserted whitespace), `"` `\` and the five shorthand control
characters escaped as in ECMAScript `QuoteJSONString`, remaining control
characters as `\u00XX`.  Numbers: the runtime value a numeral was parsed to
is a binary64 double, and `JSON.stringify` formats that double —
`Number::toString` when it is finite, the text `null` when it is not
(`Infinity` from an overflowing numeral).  Binary64 arithmetic is outside
the model, so the number semantics enters as three parameters: `den` maps a
numeral token to the engine's double (an abstract type `D`), `fin` is the
finiteness test, and `out` decomposes `Number::toString` of a finite double
back into a numeral token (ECMAScript guarantees `den (out x) = x`; that law
and `numWF (out x)` are hypotheses where proofs need them). -/

/-- Lowercase hex digit for `n < 16`. -/
def hexDigitChar (n : Nat) : Char :=
  match n with
  | 0 => '0' | 1 => '1' | 2 => '2' | 3 => '3' | 4 => '4'
  | 5 => '5' | 6 => '6' | 7 => '7' | 8 => '8' | 9 => '9'
  | 10 => 'a' | 11 => 'b' | 12 => 'c' | 13 => 'd' | 14 => 'e'
  | 15 => 'f' | _ => '0'

/-- One string character, JSON-escaped. -/
def escapeChar (c : Char) : Chars :=
  if c = '"' then ['\\', '"']
  else if c = '\\' then ['\\', '\\']
  else if c = '\x08' then ['\\', 'b']
  else if c = '\t' then ['\\', 't']
  else if c = '\n' then ['\\', 'n']
  else if c = '\x0c' then ['\\', 'f']
  else if c = '\r' then ['\\', 'r']
  else if c.toNat < 0x20 then
    ['\\', 'u', '0', '0', hexDigitChar (c.toNat / 16), hexDigitChar (c.toNat % 16)]
  else [c]

/-- A whole string body, JSON-escaped. -/
def escapeStr (s : Chars) : Chars := (s.map escapeChar).flatten

/-- The characters of an optional fraction part. -/
def fracChars : Option Chars → Chars
  | none => []
  | some ds => '.' :: ds

/-- The characters of an exponent's optional sign. -/
def signChars : Option Bool → Chars
  | none => []
  | some true => ['-']
  | some false => ['+']

/-- The characters of an optional exponent part. -/
def expChars : Option (Option Bool × Chars) → Chars
  | none => []
  | some (sg, ds) => 'e' :: (signChars sg ++ ds)

/-- The text of a number token from its parts.  Used to state the number
lexer's specification (`parseNum_spec`) and to render the engine-formatted
numeral `out x` of a finite double — never to re-emit a stored lexeme as
`JSON.stringify` output. -/
def numToken (t : NumTok) : Chars :=
  (if t.neg then ['-'] else []) ++ t.ip ++ fracChars t.fp ++ expChars t.ep

/-- `JSON.stringify`'s number serialization: format the double `den t` the
stored numeral was parsed to — `Number::toString` (as a token, via `out`)
when finite, the text `null` when not. -/
def numEmit {D : Type} (den : NumTok → D) (fin : D → Bool) (out : D → NumTok)
    (t : NumTok) : Chars :=
  if fin (den t) then numToken (out (den t)) else txt "null"

/-- A remainder that cannot extend a number token: empty, or headed by a
character that is neither a digit nor `.`/`e`/`E`.  Every position a
serialized value is followed by (`,`, `]`, `}`, end of input) qualifies. -/
def numDelim : Chars → Bool
  | [] => true
  | c :: _ => !(c.isDigit || c == '.' || c == 'e' || c == 'E')

/-- No leading digit (used to delimit digit runs). -/
def noLeadDigit : Chars → Bool
  | [] => true
  | c :: _ => !c.isDigit

/-- A fraction part is absent or a nonempty digit run (grammar side
condition used by the codec proofs). -/
def digitsPartOK : Option Chars → Prop
  | none => True
  | some ds => ds ≠ [] ∧ ∀ c ∈ ds, c.isDigit = true

/-- An exponent part is absent or a nonempty digit run. -/
def expPartOK : Option (Option Bool × Chars) → Prop
  | none => True
  | some (_, ds) => ds ≠ [] ∧ ∀ c ∈ ds, c.isDigit = true

mutual
/-- `JSON.stringify(v)` as a character list, under the engine number
semantics `den`/`fin`/`out`. -/
def jsonStr {D : Type} (den : NumTok → D) (fin : D → Bool) (out : D → NumTok) :
    Json → Chars
  | .null => txt "null"
  | .bool true => txt "true"
  | .bool false => txt "false"
  | .num t => numEmit den fin out t
  | .str s => '"' :: (escapeStr s ++ ['"'])
  | .arr xs => '[' :: (itemsStr den fin out xs ++ [']'])
  | .obj kvs => '{' :: (fieldsStr den fin out kvs ++ ['}'])

/-- Array items, comma-separated, no brackets. -/
def itemsStr {D : Type} (den : NumTok → D) (fin : D → Bool) (out : D → NumTok) :
    List Json → Chars
  | [] => []
  | [x] => jsonStr den fin out x
  | x :: y :: t => jsonStr den fin out x ++ ',' :: itemsStr den fin out (y :: t)

/-- Object members, comma-separated, no braces. -/
def fieldsStr {D : Type} (den : NumTok → D) (fin : D → Bool) (out : D → NumTok) :
    List (Chars × Json) → Chars
  | [] => []
  | [(k, v)] => '"' :: (escapeStr k ++ '"' :: ':' :: jsonStr den fin out v)
  | (k, v) :: m :: t =>
    ('"' :: (escapeStr k ++ '"' :: ':' :: jsonStr den fin out v))
      ++ ',' :: fieldsStr den fin out (m :: t)
end

/-! ### The runtime image of a re-parsed serialization

`reVal` is what `JSON.parse` gives back on `JSON.stringify` output: every
stored numeral is replaced by the formatting of its double — or by `null`
when that double is not finite.  `JsonD`/`denVal` are the *runtime* reading
of a parsed value, numbers as doubles: two values with the same `denVal`
image are indistinguishable to the program, which never keeps the lexeme. -/

mutual
/-- The value a serialized value re-parses to. -/
def reVal {D : Type} (den : NumTok → D) (fin : D → Bool) (out : D → NumTok) :
    Json → Json
  | .null => .null
  | .bool b => .bool b
  | .num t => if fin (den t) then .num (out (den t)) else .null
  | .str s => .str s
  | .arr xs => .arr (reItems den fin out xs)
  | .obj kvs => .obj (reFields den fin out kvs)

/-- `reVal` across array items. -/
def reItems {D : Type} (den : NumTok → D) (fin : D → Bool) (out : D → NumTok) :
    List Json → List Json
  | [] => []
  | x :: xs => reVal den fin out x :: reItems den fin out xs

/-- `reVal` across object members. -/
def reFields {D : Type} (den : NumTok → D) (fin : D → Bool) (out : D → NumTok) :
    List (Chars × Json) → List (Chars × Json)
  | [] => []
  | (k, v) :: t => (k, reVal den fin out v) :: reFields den fin out t
end

/-- A JSON value as the program holds it: numbers are the engine's doubles
(the abstract type `D`), not numerals. -/
inductive JsonD (D : Type) where
  | null
  | bool (b : Bool)
  | num (x : D)
  | str (s : Chars)
  | arr (xs : List (JsonD D))
  | obj (kvs : List (Chars × JsonD D))

mutual
/-- The runtime denotation of a parsed value. -/
def denVal {D : Type} (den : NumTok → D) : Json → JsonD D
  | .null => .null
  | .bool b => .bool b
  | .num t => .num (den t)
  | .str s => .str s
  | .arr xs => .arr (denItems den xs)
  | .obj kvs => .obj (denFields den kvs)

/-- Runtime denotations of array items. -/
def denItems {D : Type} (den : NumTok → D) : List Json → List (JsonD D)
  | [] => []
  | x :: xs => denVal den x :: denItems den xs

/-- Runtime denotations of object members. -/
def denFields {D : Type} (den : NumTok → D) :
    List (Chars × Json) → List (Chars × JsonD D)
  | [] => []
  | (k, v) :: t => (k, denVal den v) :: denFields den t
end

/-! ### Well-formed values

The invariants every `jsonParse` output satisfies: number tokens fit the
grammar, and object member lists carry no duplicate key. -/

/-- The number-token grammar: nonempty digit runs, no leading zero on a
multi-digit integer part. -/
def numWF (t : NumTok) : Bool :=
  (match t.ip with
   | [] => false
   | [c] => c.isDigit
   | c :: ds => c.isDigit && c != '0' && ds.all Char.isDigit)
  && (match t.fp with | none => true | some ds => !ds.isEmpty && ds.all Char.isDigit)
  && (match t.ep with | none => true | some (_, ds) => !ds.isEmpty && ds.all Char.isDigit)

/-- No key occurs twice in a member list. -/
def keysFresh : List (Chars × Json) → Bool
  | [] => true
  | (k, _) :: t => t.all (fun kv => kv.1 != k) && keysFresh t

mutual
/-- Parser-output invariant on a value. -/
def jsonWF : Json → Bool
  | .null => true
  | .bool _ => true
  | .str _ => true
  | .num t => numWF t
  | .arr xs => itemsWF xs
  | .obj kvs => keysFresh kvs && fieldsWF kvs

/-- Parser-output invariant on array items. -/
def itemsWF : List Json → Bool
  | [] => true
  | x :: t => jsonWF x && itemsWF t

/-- Parser-output invariant on member values. -/
def fieldsWF : List (Chars × Json) → Bool
  | [] => true
  | (_, v) :: t => jsonWF v && fieldsWF t
end

/-! ### Required-field validation (`App.tsx` lines 155-160 and 292-297)

The two round trips validate differently: idea generation tests
`!ideaData[field]` (JavaScript truthiness — `null`, `false`, numeric zero and
the empty string all count as missing), idea evaluation tests only
`=== undefined || === null`. -/

/-- Does the number token denote zero?  (All mantissa digits `0`; the
exponent cannot change zeroness.) -/
def numIsZero (t : NumTok) : Bool :=
  t.ip.all (fun c => c == '0') &&
  (match t.fp with | none => true | some ds => ds.all (fun c => c == '0'))

/-! Stability of a stored value under the serialize/re-parse cycle: every
numeral in it denotes a finite double (a non-finite one re-serializes as
`null`) whose re-formatting preserves zeroness (an underflowed numeral such
as `1e-999` re-formats as `0`, changing JavaScript truthiness). -/

mutual
/-- Every numeral in the value survives re-serialization: finite, and
zero exactly when its formatted form is. -/
def stableVal {D : Type} (den : NumTok → D) (fin : D → Bool) (out : D → NumTok) :
    Json → Bool
  | .null => true
  | .bool _ => true
  | .str _ => true
  | .num t => fin (den t) && (numIsZero (out (den t)) == numIsZero t)
  | .arr xs => stableItems den fin out xs
  | .obj kvs => stableFields den fin out kvs

/-- `stableVal` across array items. -/
def stableItems {D : Type} (den : NumTok → D) (fin : D → Bool) (out : D → NumTok) :
    List Json → Bool
  | [] => true
  | x :: xs => stableVal den fin out x && stableItems den fin out xs

/-- `stableVal` across object members. -/
def stableFields {D : Type} (den : NumTok → D) (fin : D → Bool) (out : D → NumTok) :
    List (Chars × Json) → Bool
  | [] => true
  | (_, v) :: t => stableVal den fin out v && stableFields den fin out t
end

/-- JavaScript truthiness of a parsed JSON value. -/
def jsTruthy : Json → Bool
  | .null => false
  | .bool b => b
  | .num t => !numIsZero t
  | .str s => !s.isEmpty
  | .arr _ => true
  | .obj _ => true

/-- Which of the two structurally identical round trips is running; it
selects the validation test and the error wording. -/
inductive OpKind where
  | genIdea
  | evalIdea
deriving DecidableEq

/-- Does a field's looked-up value pass the round trip's required-field test?
`genIdea` is line 157 (`!ideaData[field]`), `evalIdea` is line 294
(`=== undefined || === null`). -/
def fieldPasses (k : OpKind) (v? : Option Json) : Bool :=
  match k, v? with
  | _, none => false
  | .genIdea, some v => jsTruthy v
  | .evalIdea, some .null => false
  | .evalIdea, some _ => true

/-- The `for (const field of requiredFields)` loop: the first required field
failing the test, if any. -/
def firstMissingField (k : OpKind) (req : List Chars) (data : Json) : Option Chars :=
  match req with
  | [] => none
  | f :: t =>
    if fieldPasses k (getFieldJ data f) then firstMissingField k t data else some f

/-! ### Thrown failures of the try-block

Each constructor carries its structured payload and the full message of the
JavaScript `Error` thrown at that point.  `malformedJson` is the engine's
`SyntaxError` from `JSON.parse`: its message text is engine-defined, so the
round-trip environment supplies it as a function of the offending substring. -/

/-- A failure thrown inside a round trip's try-block. -/
inductive Thrown where
  | connFailed (msg : Chars)
  | gatewayErr (msg : Chars)
  | noJsonFound (cleaned : Chars) (msg : Chars)
  | malformedJson (offending : Chars) (msg : Chars)
  | missingField (field : Chars) (msg : Chars)

/-- The `err.message` the catch-block sees. -/
def Thrown.message : Thrown → Chars
  | .connFailed m => m
  | .gatewayErr m => m
  | .noJsonFound _ m => m
  | .malformedJson _ m => m
  | .missingField _ m => m

/-- Line 149 / line 286 wording. -/
def noJsonMsg (k : OpKind) (cleaned : Chars) : Chars :=
  match k with
  | .genIdea => txt "No valid JSON found in response: " ++ cleaned
  | .evalIdea => txt "No valid JSON found in evaluation response: " ++ cleaned

/-- Line 158 / line 295 wording. -/
def missingFieldMsg (k : OpKind) (f : Chars) : Chars :=
  match k with
  | .genIdea => txt "Missing required field: " ++ f
  | .evalIdea => txt "Missing required evaluation field: " ++ f

/-! ### The parse-and-validate pipeline (lines 137-160 / 274-297)

`runPipeline` is the shared text-to-validated-object sequence of the two
round trips; `pm` is the engine's `JSON.parse` error-message function. -/

/-- Clean, slice, parse, validate: the whole object on success, the first
classified failure otherwise. -/
def runPipeline (pm : Chars → Chars) (k : OpKind) (req : List Chars) (raw : Chars) :
    Except Thrown Json :=
  let cleaned := cleanResponse raw
  match jsonSlice cleaned with
  | none => .error (.noJsonFound cleaned (noJsonMsg k cleaned))
  | some sub =>
    match jsonParse sub with
    | none => .error (.malformedJson sub (pm sub))
    | some data =>
      match firstMissingField k req data with
      | some f => .error (.missingField f (missingFieldMsg k f))
      | none => .ok data

/-- The spec's `parseContract`: the pipeline's successful output narrowed to
the required-field set, in required-field order (the `getD .null` default is
unreachable after validation). -/
def parseContract (pm : Chars → Chars) (k : OpKind) (req : List Chars) (raw : Chars) :
    Except Thrown (List (Chars × Json)) :=
  (runPipeline pm k req raw).map (fun d => req.map (fun f => (f, (getFieldJ d f).getD .null)))

/-! ### The two record types (TS `interface Idea` / `interface Evaluation`)

The TypeScript field types (`string`, `number`, `string[]`) are not enforced
at runtime — the fields hold whatever JSON values validation let through — so
they are modelled as `Json`. -/

/-- A generated startup idea (lines 6-14); `id` is `Date.now().toString()`. -/
structure Idea where
  id : Chars
  title : Json
  description : Json
  category : Json
  targetMarket : Json
  problem : Json
  solution : Json

/-- An idea evaluation (lines 16-29). -/
structure Evaluation where
  marketSize : Json
  competition : Json
  feasibility : Json
  profitability : Json
  innovation : Json
  timeToMarket : Json
  overallScore : Json
  strengths : Json
  weaknesses : Json
  recommendations : Json
  marketAnalysis : Json
  riskAssessment : Json

/-- Line 155: the generation contract's required fields. -/
def ideaFields : List Chars :=
  [txt "title", txt "description", txt "category", txt "targetMarket",
   txt "problem", txt "solution"]

/-- Line 292: the evaluation contract's required fields. -/
def evalFields : List Chars :=
  [txt "marketSize", txt "competition", txt "feasibility", txt "profitability",
   txt "innovation", txt "timeToMarket", txt "overallScore", txt "strengths",
   txt "weaknesses", txt "recommendations", txt "marketAnalysis",
   txt "riskAssessment"]

/-- Lines 137-170: response text to a new `Idea`, or the thrown failure. -/
def parseIdea (pm : Chars → Chars) (now : Chars) (raw : Chars) : Except Thrown Idea :=
  (runPipeline pm .genIdea ideaFields raw).map (fun d =>
    { id := now
      title := (getFieldJ d (txt "title")).getD .null
      description := (getFieldJ d (txt "description")).getD .null
      category := (getFieldJ d (txt "category")).getD .null
      targetMarket := (getFieldJ d (txt "targetMarket")).getD .null
      problem := (getFieldJ d (txt "problem")).getD .null
      solution := (getFieldJ d (txt "solution")).getD .null })

/-- Lines 274-312: response text to a new `Evaluation`, or the thrown
failure. -/
def parseEvaluation (pm : Chars → Chars) (raw : Chars) : Except Thrown Evaluation :=
  (runPipeline pm .evalIdea evalFields raw).map (fun d =>
    { marketSize := (getFieldJ d (txt "marketSize")).getD .null
      competition := (getFieldJ d (txt "competition")).getD .null
      feasibility := (getFieldJ d (txt "feasibility")).getD .null
      profitability := (getFieldJ d (txt "profitability")).getD .null
      innovation := (getFieldJ d (txt "innovation")).getD .null
      timeToMarket := (getFieldJ d (txt "timeToMarket")).getD .null
      overallScore := (getFieldJ d (txt "overallScore")).getD .null
      strengths := (getFieldJ d (txt "strengths")).getD .null
      weaknesses := (getFieldJ d (txt "weaknesses")).getD .null
      recommendations := (getFieldJ d (txt "recommendations")).getD .null
      marketAnalysis := (getFieldJ d (txt "marketAnalysis")).getD .null
      riskAssessment := (getFieldJ d (txt "riskAssessment")).getD .null })

/-! ### Session state and the two round trips

The component's `useState` slots, and `generateAIIdea` / `evaluateAIIdea` as
pure state transformers.  The outcomes of the external calls (connection
test, model call) arrive through an environment record; `parseMsg` is the
engine's `JSON.parse` error-message function.  The `debugInfo` written by the
catch-blocks (`JSON.stringify` of the error's fields) is abstracted to a
fixed prefix plus the error message. -/

/-- The component's state slots (lines 37-47). -/
structure SessionState where
  currentIdea : Option Idea
  evaluation : Option Evaluation
  showEvaluation : Bool
  apiKey : Chars
  tempApiKey : Chars
  showApiKeyInput : Bool
  isGenerating : Bool
  isEvaluating : Bool
  error : Chars
  selectedCategory : Chars
  debugInfo : Chars

/-- External outcomes feeding one `generateAIIdea` run: the
`testApiConnection` result (`.error (message, detailsText)` models its
`success: false` return), the `model.generateContent` outcome, the engine's
parse-error message function, and `Date.now().toString()`. -/
structure GenEnv where
  connTest : Except (Chars × Chars) Chars
  genContent : Except Chars Chars
  parseMsg : Chars → Chars
  now : Chars

/-- External outcomes feeding one `evaluateAIIdea` run. -/
structure EvalEnv where
  genContent : Except Chars Chars
  parseMsg : Chars → Chars

/-- Lines 180-194: the catch-block's message classification for generation. -/
def classifyGen (m : Chars) : Chars :=
  let base := txt "Failed to generate idea. "
  if listContains (txt "API_KEY_INVALID") m then
    base ++ txt "Invalid API key. Please check your Gemini API key."
  else if listContains (txt "PERMISSION_DENIED") m then
    base ++ txt "Permission denied. Please ensure your API key has the correct permissions."
  else if listContains (txt "QUOTA_EXCEEDED") m then
    base ++ txt "API quota exceeded. Please check your usage limits."
  else if listContains (txt "Failed to fetch") m then
    base ++ txt "Network error. Please check your internet connection."
  else if listContains (txt "API Connection Failed") m then
    base ++ removeFirstOcc (txt "API Connection Failed: ") m
  else
    base ++ txt "Error: " ++ (if m.isEmpty then txt "Unknown error occurred" else m)

/-- Lines 321-333: the catch-block's message classification for evaluation. -/
def classifyEval (m : Chars) : Chars :=
  let base := txt "Failed to evaluate idea. "
  if listContains (txt "API_KEY_INVALID") m then
    base ++ txt "Invalid API key. Please check your Gemini API key."
  else if listContains (txt "PERMISSION_DENIED") m then
    base ++ txt "Permission denied. Please ensure your API key has the correct permissions."
  else if listContains (txt "QUOTA_EXCEEDED") m then
    base ++ txt "API quota exceeded. Please check your usage limits."
  else if listContains (txt "Failed to fetch") m then
    base ++ txt "Network error. Please check your internet connection."
  else
    base ++ txt "Error: " ++ (if m.isEmpty then txt "Unknown error occurred" else m)

/-- Lines 196-202: generation's catch-block state writes. -/
def genCatch (m : Chars) (st : SessionState) : SessionState :=
  { st with error := classifyGen m, debugInfo := txt "Error details: " ++ m }

/-- Lines 335-341: evaluation's catch-block state writes. -/
def evalCatch (m : Chars) (st : SessionState) : SessionState :=
  { st with error := classifyEval m, debugInfo := txt "Evaluation error details: " ++ m }

/-- Lines 83-206: one `generateAIIdea` run as a state transformer. -/
def generateAIIdea (env : GenEnv) (st : SessionState) : SessionState :=
  if (jsTrim st.apiKey).isEmpty then { st with showApiKeyInput := true }
  else
    let s1 := { st with isGenerating := true, error := [],
                        debugInfo := txt "Starting API connection..." }
    let s2 := { s1 with debugInfo := txt "Testing API connection..." }
    let done :=
      match env.connTest with
      | .error f =>
        genCatch (txt "API Connection Failed: " ++ f.1)
          { s2 with debugInfo := txt "Connection failed: " ++ f.2 }
      | .ok _ =>
        let s3 := { s2 with debugInfo := txt "API connection successful, generating idea..." }
        let s4 := { s3 with debugInfo := txt "Sending request to Gemini..." }
        match env.genContent with
        | .error m => genCatch m s4
        | .ok text =>
          let s5 := { s4 with debugInfo := txt "Received response: " ++ text.take 100 ++ txt "..." }
          match parseIdea env.parseMsg env.now text with
          | .error e => genCatch e.message s5
          | .ok idea =>
            { s5 with currentIdea := some idea, showEvaluation := false,
                      evaluation := none,
                      debugInfo := txt "Idea generated successfully!" }
    { done with isGenerating := false }

/-- Lines 208-345: one `evaluateAIIdea` run as a state transformer.  The
guard `if (!currentIdea || !apiKey.trim()) return;` leaves the state
untouched. -/
def evaluateAIIdea (env : EvalEnv) (st : SessionState) : SessionState :=
  match st.currentIdea with
  | none => st
  | some _ =>
    if (jsTrim st.apiKey).isEmpty then st
    else
      let s1 := { st with isEvaluating := true, error := [],
                          debugInfo := txt "Starting AI evaluation..." }
      let s2 := { s1 with debugInfo := txt "Sending evaluation request to Gemini..." }
      let done :=
        match env.genContent with
        | .error m => evalCatch m s2
        | .ok text =>
          let s3 := { s2 with
            debugInfo := txt "Received evaluation response: " ++ text.take 100 ++ txt "..." }
          match parseEvaluation env.parseMsg text with
          | .error e => evalCatch e.message s3
          | .ok ev =>
            { s3 with evaluation := some ev, showEvaluation := true,
                      debugInfo := txt "AI evaluation completed successfully!" }
      { done with isEvaluating := false }

/-- The message thrown by a failing generation try-block, when it fails
(mirrors the failure points of `generateAIIdea`, in order). -/
def genFailure (env : GenEnv) : Option Chars :=
  match env.connTest with
  | .error f => some (txt "API Connection Failed: " ++ f.1)
  | .ok _ =>
    match env.genContent with
    | .error m => some m
    | .ok text =>
      match parseIdea env.parseMsg env.now text with
      | .error e => some e.message
      | .ok _ => none

/-- The message thrown by a failing evaluation try-block, when it fails. -/
def evalFailure (env : EvalEnv) : Option Chars :=
  match env.genContent with
  | .error m => some m
  | .ok text =>
    match parseEvaluation env.parseMsg text with
    | .error e => some e.message
    | .ok _ => none

/-! ### Concrete fixtures (shared by witnesses and counterexamples) -/

/-- Decimal value of a digit run (for the demonstration number semantics). -/
def digitsToNat (ds : Chars) : Nat :=
  ds.foldl (fun acc c => acc * 10 + (c.toNat - '0'.toNat)) 0

/-- A numeral certain to overflow binary64: nonzero integer part and a
non-negative exponent of value 309 or more puts the magnitude at or above
`1e309`, past the largest double (~`1.8e308`).  (A sound under-approximation
of overflow — enough to classify `1e999`.) -/
def demoHuge (t : NumTok) : Bool :=
  (t.ip != ['0']) &&
  (match t.ep with
   | some (sg, ds) => sg != some true && decide (309 ≤ digitsToNat ds)
   | none => false)

/-- A finite double of the demonstration semantics: a well-formed,
non-overflowing numeral standing for itself. -/
def DemoTok : Type := {t : NumTok // (numWF t && !demoHuge t) = true}

/-- The demonstration double type: `none` is the non-finite value. -/
abbrev DemoD := Option DemoTok

/-- Demonstration numeral-to-double conversion: an overflowing numeral
denotes the non-finite value, any other well-formed numeral itself. -/
def demoDen (t : NumTok) : DemoD :=
  if h : (numWF t && !demoHuge t) = true then some ⟨t, h⟩ else none

/-- Demonstration finiteness test. -/
def demoFin (x : DemoD) : Bool := x.isSome

/-- Demonstration `Number::toString`: a finite value formats as its own
numeral. -/
def demoOut (x : DemoD) : NumTok :=
  match x with
  | some p => p.1
  | none => ⟨false, ['0'], none, none⟩

/-- The lexed token of the numeral `1e999`. -/
def tok1e999 : NumTok := ⟨false, ['1'], none, some (none, ['9', '9', '9'])⟩

/-- A fixed engine parse-error message function (a typical V8 wording). -/
def pmStub : Chars → Chars := fun _ => txt "Unexpected token a in JSON at position 1"

/-- A placeholder idea record. -/
def ideaStub : Idea :=
  { id := txt "0", title := .str ['t'], description := .null, category := .null,
    targetMarket := .null, problem := .null, solution := .null }

/-- The all-initial component state (`useState` defaults). -/
def stEmpty : SessionState :=
  { currentIdea := none, evaluation := none, showEvaluation := false,
    apiKey := [], tempApiKey := [], showApiKeyInput := false,
    isGenerating := false, isEvaluating := false, error := [],
    selectedCategory := [], debugInfo := [] }

/-- Initial state with a stored credential. -/
def stReady : SessionState := { stEmpty with apiKey := txt "AIzaTest" }

/-- Credential present and an idea on screen. -/
def stWithIdea : SessionState := { stReady with currentIdea := some ideaStub }

/-- Credential and idea present while both round trips are marked in flight. -/
def stBusy : SessionState := { stWithIdea with isGenerating := true, isEvaluating := true }

/-- An idea present but no credential stored. -/
def stNoKeyIdea : SessionState := { stEmpty with currentIdea := some ideaStub }

/-- A generation environment whose connection test fails. -/
def genEnvFail : GenEnv :=
  { connTest := .error (txt "boom", txt "details"), genContent := .error [],
    parseMsg := pmStub, now := [] }

/-- An evaluation environment whose model call fails. -/
def evalEnvFail : EvalEnv := { genContent := .error (txt "boom"), parseMsg := pmStub }

/-- A well-formed generation response covering all six required fields. -/
def ideaText : Chars :=
  txt "\x7b\"title\":\"t\",\"description\":\"d\",\"category\":\"c\",\"targetMarket\":\"m\",\"problem\":\"p\",\"solution\":\"s\"\x7d"

/-- The idea `ideaText` parses to (with `now = "1"`). -/
def ideaParsed : Idea :=
  { id := txt "1", title := .str ['t'], description := .str ['d'],
    category := .str ['c'], targetMarket := .str ['m'], problem := .str ['p'],
    solution := .str ['s'] }

/-- A generation environment that succeeds end to end. -/
def genEnvOK : GenEnv :=
  { connTest := .ok (txt "ok"), genContent := .ok ideaText, parseMsg := pmStub,
    now := txt "1" }

/-- A placeholder evaluation record. -/
def evalStub : Evaluation :=
  { marketSize := .null, competition := .null, feasibility := .null,
    profitability := .null, innovation := .null, timeToMarket := .null,
    overallScore := .null, strengths := .null, weaknesses := .null,
    recommendations := .null, marketAnalysis := .null, riskAssessment := .null }

/-- Credential, idea and a finished evaluation all present. -/
def stEvaluated : SessionState :=
  { stWithIdea with evaluation := some evalStub, showEvaluation := true }

/-! ## Theorems -/

/-! ### List and string-helper lemmas -/

theorem listStartsWith_append (p s : Chars) : listStartsWith p (p ++ s) = true := by
  induction p with
  | nil => rfl
  | cons c t ih => simp [listStartsWith, ih]

theorem listStartsWith_of_append (p q s : Chars)
    (h : listStartsWith (p ++ q) s = true) : listStartsWith p s = true := by
  induction p generalizing s with
  | nil => rfl
  | cons c t ih =>
    cases s with
    | nil => exact absurd h (by simp [listStartsWith])
    | cons c' s' =>
      simp only [List.cons_append, listStartsWith, Bool.and_eq_true] at h ⊢
      exact ⟨h.1, ih s' h.2⟩

theorem listEndsWith_append (p s : Chars) : listEndsWith p (s ++ p) = true := by
  unfold listEndsWith
  rw [List.reverse_append]
  exact listStartsWith_append _ _

theorem dropWhile_append_all (p : Char → Bool) (l r : Chars) (h : ∀ c ∈ l, p c = true) :
    (l ++ r).dropWhile p = r.dropWhile p := by
  induction l with
  | nil => rfl
  | cons c t ih =>
    simp only [List.cons_append, List.dropWhile_cons, h c (by simp)]
    exact ih (fun x hx => h x (by simp [hx]))

theorem dropWhile_cons_not (p : Char → Bool) (c : Char) (r : Chars) (h : p c = false) :
    (c :: r).dropWhile p = c :: r := by
  simp [List.dropWhile_cons, h]

/-- `removeOpenFence` on a text that begins with the (nonempty) marker
followed by a newline: exactly marker and newline go. -/
theorem removeOpenFence_here (c : Char) (p r : Chars) :
    removeOpenFence (c :: p) ((c :: p) ++ '\n' :: r) = r := by
  have hsw := listStartsWith_append (c :: p) ('\n' :: r)
  rw [show (c :: p) ++ '\n' :: r = c :: (p ++ '\n' :: r) from rfl] at hsw ⊢
  unfold removeOpenFence
  rw [if_pos hsw]
  have hdrop : (c :: (p ++ '\n' :: r)).drop (c :: p).length = '\n' :: r := by
    rw [show c :: (p ++ '\n' :: r) = (c :: p) ++ '\n' :: r from rfl]
    exact List.drop_left _ _
  rw [hdrop]
  rfl

/-- `removeCloseFence` on a text ending in newline-then-fence: exactly those
four characters go. -/
theorem removeCloseFence_here (body : Chars) :
    removeCloseFence (body ++ '\n' :: txt "```") = body := by
  have hsplit : body ++ '\n' :: txt "```" = (body ++ ['\n']) ++ txt "```" := by simp
  unfold removeCloseFence
  rw [hsplit, if_pos (listEndsWith_append _ _)]
  have hlen : ((body ++ ['\n']) ++ txt "```").length - 3 = (body ++ ['\n']).length := by
    simp [txt]
  rw [hlen, List.take_left]
  simp

/-- `removeCloseFence` leaves a text not ending in the fence untouched. -/
theorem removeCloseFence_skip (s : Chars) (h : listEndsWith (txt "```") s = false) :
    removeCloseFence s = s := by
  unfold removeCloseFence
  rw [h]
  rfl

theorem dropWhile_first_not (p : Char → Bool) (l : Chars) (c : Char) (r : Chars)
    (h : l.dropWhile p = c :: r) : p c = false := by
  induction l with
  | nil => simp at h
  | cons a t ih =>
    rw [List.dropWhile_cons] at h
    cases hp : p a with
    | true => rw [hp] at h; simp only [if_true] at h; exact ih h
    | false =>
      rw [hp] at h
      simp only [Bool.false_eq_true, if_false] at h
      cases h
      exact hp

theorem dropWhile_decomp (p : Char → Bool) (s : Chars) :
    ∃ a, s = a ++ s.dropWhile p ∧ ∀ c ∈ a, p c = true :=
  ⟨s.takeWhile p, (List.takeWhile_append_dropWhile p s).symm,
   fun _ hc => List.mem_takeWhile_imp hc⟩

/-- **C2** (first part): `jsonSlice` succeeds exactly on the span running
from the text's first `{` through its last `}` — arbitrary `{`-free prose
before and `}`-free prose after is tolerated.  Second part: when no such
span exists the pipeline fails with the `NoJsonFound`-classified error
carrying the cleaned text.  Third part: with two brace-delimited regions the
outer first-`{`-to-last-`}` span is taken, not an inner one. -/
theorem claim_C2 (s u : Chars) :
    (jsonSlice s = some u ↔
      ∃ a b, s = a ++ u ++ b ∧ (∀ c ∈ a, c ≠ '{') ∧ (∀ c ∈ b, c ≠ '}') ∧
        u.head? = some '{' ∧ u.getLast? = some '}') ∧
    (∀ (pm : Chars → Chars) (k : OpKind) (req : List Chars) (raw : Chars),
      jsonSlice (cleanResponse raw) = none →
      runPipeline pm k req raw
        = .error (.noJsonFound (cleanResponse raw) (noJsonMsg k (cleanResponse raw)))) ∧
    jsonSlice (txt "x\x7ba\x7d y \x7bb\x7d z") = some (txt "\x7ba\x7d y \x7bb\x7d") := by
  refine ⟨⟨?_, ?_⟩, ?_, by decide⟩
  · -- forward: read the decomposition off the computation
    intro h
    simp only [jsonSlice] at h
    split at h
    case isTrue hlen =>
      injection h with h
      obtain ⟨a, hsa, hamem⟩ := dropWhile_decomp (fun c => c != '{') s
      obtain ⟨b', hbt, hbmem⟩ :=
        dropWhile_decomp (fun c => c != '}') (s.dropWhile (fun c => c != '{')).reverse
      have htu : s.dropWhile (fun c => c != '{') = u ++ b'.reverse := by
        have hrv := congrArg List.reverse hbt
        rw [List.reverse_reverse, List.reverse_append] at hrv
        rw [hrv, h]
      have hune : u ≠ [] := by
        intro hnil
        rw [hnil] at h
        rw [h] at hlen
        simp at hlen
      refine ⟨a, b'.reverse, ?_, ?_, ?_, ?_, ?_⟩
      · rw [List.append_assoc, ← htu, ← hsa]
      · intro c hc
        simpa using hamem c hc
      · intro c hc
        simpa using hbmem c (List.mem_reverse.mp hc)
      · -- head of `u` is the first `{`
        have htne : s.dropWhile (fun c => c != '{') ≠ [] := by
          rw [htu]
          simp [hune]
        obtain ⟨c, r, hcr⟩ := List.exists_cons_of_ne_nil htne
        have hcb : c = '{' := by
          simpa using dropWhile_first_not (fun c => c != '{') s c r hcr
        obtain ⟨c0, r0, hu0⟩ := List.exists_cons_of_ne_nil hune
        have hc0 : c0 = c := by
          rw [hu0, hcr] at htu
          exact (List.cons_eq_cons.mp htu).1.symm
        rw [hu0, hc0, hcb]
        rfl
      · -- last of `u` is the last `}`
        have hurev : u.reverse
            = (s.dropWhile (fun c => c != '{')).reverse.dropWhile (fun c => c != '}') := by
          rw [← h, List.reverse_reverse]
        have hne : u.reverse ≠ [] := by simp [hune]
        obtain ⟨c, r, hcr⟩ := List.exists_cons_of_ne_nil hne
        have hcb : c = '}' := by
          simpa using dropWhile_first_not (fun c => c != '}') _ c r (hurev.symm.trans hcr)
        rw [← List.head?_reverse, hcr, hcb]
        rfl
    case isFalse h' =>
      exact absurd h (by simp)
  · -- backward: the computation walks straight to the given span
    rintro ⟨a, b, rfl, ha, hb, hh, hl⟩
    obtain ⟨c, u', rfl⟩ : ∃ c u', u = c :: u' := by
      cases u with
      | nil => simp at hh
      | cons c u' => exact ⟨c, u', rfl⟩
    have hc : c = '{' := by simpa using hh
    subst hc
    have hu' : u' ≠ [] := by
      intro hnil
      subst hnil
      simp at hl
    have h1 : (a ++ ('{' :: u') ++ b).dropWhile (fun c => c != '{')
        = ('{' :: u') ++ b := by
      rw [List.append_assoc, dropWhile_append_all _ a _ (fun c hc => by simp [ha c hc])]
      exact dropWhile_cons_not _ _ _ (by simp)
    have h2 : ((('{' :: u') ++ b).reverse.dropWhile (fun c => c != '}')).reverse
        = '{' :: u' := by
      rw [List.reverse_append,
          dropWhile_append_all _ b.reverse _ (fun c hc => by
            simp [hb c (List.mem_reverse.mp hc)])]
      obtain ⟨c1, r1, hcr⟩ := List.exists_cons_of_ne_nil
        (show ('{' :: u').reverse ≠ [] by simp)
      have hc1 : c1 = '}' := by
        have hl' := hl
        rw [← List.head?_reverse, hcr] at hl'
        simpa using hl'
      rw [hcr, dropWhile_cons_not _ _ _ (by simp [hc1]), ← hcr, List.reverse_reverse]
    have hlen : 2 ≤ ('{' :: u').length := by
      cases u' with
      | nil => exact absurd rfl hu'
      | cons _ _ => simp
    simp only [jsonSlice]
    rw [h1, h2, if_pos hlen]
  · intro pm k req raw h
    simp only [runPipeline]
    rw [h]


theorem fieldPasses_eval_iff (v? : Option Json) :
    fieldPasses .evalIdea v? = true ↔ ∃ v, v? = some v ∧ v ≠ Json.null := by
  cases v? with
  | none => simp [fieldPasses]
  | some v =>
    cases v with
    | null => simp [fieldPasses]
    | bool b => simp [fieldPasses]
    | num t => simp [fieldPasses]
    | str s => simp [fieldPasses]
    | arr xs => simp [fieldPasses]
    | obj kvs => simp [fieldPasses]

theorem fieldPasses_gen_iff (v? : Option Json) :
    fieldPasses .genIdea v? = true ↔ ∃ v, v? = some v ∧ jsTruthy v = true := by
  cases v? with
  | none => simp [fieldPasses]
  | some v => simp [fieldPasses]

theorem firstMissingField_none_iff (k : OpKind) (req : List Chars) (data : Json) :
    firstMissingField k req data = none ↔
      ∀ f ∈ req, fieldPasses k (getFieldJ data f) = true := by
  induction req with
  | nil => simp [firstMissingField]
  | cons f t ih =>
    unfold firstMissingField
    cases hp : fieldPasses k (getFieldJ data f) with
    | true => simp [hp, ih]
    | false => simp [hp]

theorem firstMissingField_some (k : OpKind) (req : List Chars) (data : Json) (f : Chars)
    (h : firstMissingField k req data = some f) :
    f ∈ req ∧ fieldPasses k (getFieldJ data f) = false ∧
      ∃ pre post, req = pre ++ f :: post ∧
        ∀ g ∈ pre, fieldPasses k (getFieldJ data g) = true := by
  induction req with
  | nil => simp [firstMissingField] at h
  | cons f0 t ih =>
    unfold firstMissingField at h
    cases hp : fieldPasses k (getFieldJ data f0) with
    | true =>
      rw [hp] at h
      simp only [if_true] at h
      obtain ⟨hmem, hfail, pre, post, hsplit, hpre⟩ := ih h
      refine ⟨by simp [hmem], hfail, f0 :: pre, post, by simp [hsplit], ?_⟩
      intro g hg
      rcases List.mem_cons.mp hg with rfl | hg'
      · exact hp
      · exact hpre g hg'
    | false =>
      rw [hp] at h
      simp only [Bool.false_eq_true, if_false, Option.some.injEq] at h
      subst h
      exact ⟨by simp, hp, [], t, rfl, by simp⟩

/-- **C1** (amended).  The two round trips validate differently.  Evaluation
(line 294) checks presence and non-null only: the parsed object passes iff
every required key is bound to a non-null value — an empty string, a zero, or
a wrongly typed value is accepted.  Generation (line 157) instead tests
JavaScript truthiness: every required key must be bound to a truthy value, so
`null`, `false`, numeric zero and the empty string are all rejected.  In both
round trips the loop stops at the first failing required field, and the
pipeline then fails with the missing-field error naming exactly that
field. -/
theorem claim_C1 (k : OpKind) (req : List Chars) (data : Json) :
    (firstMissingField .evalIdea req data = none ↔
      ∀ f ∈ req, ∃ v, getFieldJ data f = some v ∧ v ≠ Json.null) ∧
    (firstMissingField .genIdea req data = none ↔
      ∀ f ∈ req, ∃ v, getFieldJ data f = some v ∧ jsTruthy v = true) ∧
    (∀ f, firstMissingField k req data = some f →
      f ∈ req ∧ fieldPasses k (getFieldJ data f) = false ∧
      ∃ pre post, req = pre ++ f :: post ∧
        ∀ g ∈ pre, fieldPasses k (getFieldJ data g) = true) ∧
    (∀ (pm : Chars → Chars) (raw sub : Chars) (f : Chars),
      jsonSlice (cleanResponse raw) = some sub →
      jsonParse sub = some data →
      firstMissingField k req data = some f →
      runPipeline pm k req raw = .error (.missingField f (missingFieldMsg k f))) := by
  refine ⟨?_, ?_, firstMissingField_some k req data, ?_⟩
  · rw [firstMissingField_none_iff]
    constructor
    · intro h f hf
      exact (fieldPasses_eval_iff _).mp (h f hf)
    · intro h f hf
      exact (fieldPasses_eval_iff _).mpr (h f hf)
  · rw [firstMissingField_none_iff]
    constructor
    · intro h f hf
      exact (fieldPasses_gen_iff _).mp (h f hf)
    · intro h f hf
      exact (fieldPasses_gen_iff _).mpr (h f hf)
  · intro pm raw sub f hslice hparse hfmf
    simp only [runPipeline]
    simp only [hslice, hparse, hfmf]

/-- Witness for C1: evaluation accepts an empty string under `"a"` (presence
and non-null suffice), and the pipeline run on a response whose `"a"` is
`null` fails naming `"a"`. -/
theorem claim_C1_witness :
    firstMissingField .evalIdea [txt "a"] (Json.obj [(txt "a", Json.str [])]) = none ∧
    runPipeline pmStub .evalIdea [txt "a"] (txt "\x7b\"a\":null\x7d")
      = .error (.missingField (txt "a") (missingFieldMsg .evalIdea (txt "a"))) := by
  constructor
  · exact (claim_C1 .evalIdea [txt "a"] (Json.obj [(txt "a", Json.str [])])).1.mpr
      (by
        intro f hf
        rcases List.mem_singleton.mp hf with rfl
        exact ⟨Json.str [], rfl, by simp⟩)
  · exact (claim_C1 .evalIdea [txt "a"] (Json.obj [(txt "a", Json.null)])).2.2.2
      pmStub (txt "\x7b\"a\":null\x7d") (txt "\x7b\"a\":null\x7d") (txt "a") rfl rfl rfl

/-- Counterexample to C1 as stated: in the generation round trip a required
field bound to the empty string — present and non-null — is rejected: the
validation loop reports it missing, and the full pipeline fails with the
missing-field error, where the claim says such an object passes
validation. -/
theorem claim_C1_cex :
    getFieldJ (Json.obj [(txt "title", Json.str [])]) (txt "title")
      = some (Json.str []) ∧
    Json.str [] ≠ Json.null ∧
    firstMissingField .genIdea [txt "title"] (Json.obj [(txt "title", Json.str [])])
      = some (txt "title") ∧
    runPipeline pmStub .genIdea [txt "title"] (txt "\x7b\"title\":\"\"\x7d")
      = .error (.missingField (txt "title") (missingFieldMsg .genIdea (txt "title"))) :=
  ⟨rfl, by simp, rfl, rfl⟩

/-- **C8.**  When the extracted brace-delimited substring is not valid JSON,
the pipeline fails with the `MalformedJson`-classified error carrying the
offending substring and the engine's parse-error message about it
(`JSON.parse`'s message text is engine-defined, modelled by `pm`), and the
failure short-circuits required-field validation: the result is this error
for every required-field list.  The substring `{a:1,}` of the claim's example
is indeed rejected by the `JSON.parse` model. -/
theorem claim_C8 (pm : Chars → Chars) (k : OpKind) (req : List Chars) (raw sub : Chars)
    (hslice : jsonSlice (cleanResponse raw) = some sub)
    (hbad : jsonParse sub = none) :
    runPipeline pm k req raw = .error (.malformedJson sub (pm sub)) ∧
    jsonParse (txt "\x7ba:1,\x7d") = none := by
  constructor
  · simp only [runPipeline]
    simp only [hslice, hbad]
  · rfl

/-- Witness for C8: the claim's own example, end to end, under the generation
contract (validation never runs). -/
theorem claim_C8_witness :
    runPipeline pmStub .genIdea ideaFields (txt "\x7ba:1,\x7d")
      = .error (.malformedJson (txt "\x7ba:1,\x7d") (pmStub (txt "\x7ba:1,\x7d"))) ∧
    jsonParse (txt "\x7ba:1,\x7d") = none :=
  claim_C8 pmStub .genIdea ideaFields (txt "\x7ba:1,\x7d") (txt "\x7ba:1,\x7d") rfl rfl

/-- Witness for C2: prose around a concrete span. -/
theorem claim_C2_witness :
    jsonSlice (txt "pre " ++ txt "\x7b1\x7d" ++ txt " post") = some (txt "\x7b1\x7d") :=
  ((claim_C2 (txt "pre " ++ txt "\x7b1\x7d" ++ txt " post") (txt "\x7b1\x7d")).1).mpr
    ⟨txt "pre ", txt " post", rfl, by decide, by decide, by decide, by decide⟩

/-- **C3.**  Fence stripping after trimming: a text wrapped in a
```` ```json ```` fence loses exactly the opening marker (with its newline)
and the closing fence (with its newline); a text wrapped in a generic fence
likewise; the wrapped content — whatever it holds — is untouched; a trimmed
text that begins with no fence marker passes through unchanged; and when a
```` ```json ```` opener has no closing fence only the opener is removed. -/
theorem claim_C3 (body t : Chars) :
    cleanResponse t = stripCodeFences (jsTrim t) ∧
    stripCodeFences (txt "```json" ++ '\n' :: (body ++ '\n' :: txt "```")) = body ∧
    stripCodeFences (txt "```" ++ '\n' :: (body ++ '\n' :: txt "```")) = body ∧
    (listStartsWith (txt "```") (jsTrim t) = false → cleanResponse t = jsTrim t) ∧
    (listEndsWith (txt "```") body = false →
      stripCodeFences (txt "```json" ++ '\n' :: body) = body) := by
  refine ⟨rfl, ?_, ?_, ?_, ?_⟩
  · unfold stripCodeFences
    rw [if_pos (listStartsWith_append _ _)]
    rw [show txt "```json" = '`' :: txt "``json" from rfl, removeOpenFence_here]
    exact removeCloseFence_here body
  · unfold stripCodeFences
    have hjson : listStartsWith (txt "```json") (txt "```" ++ '\n' :: (body ++ '\n' :: txt "```"))
        = false := by
      rw [show txt "```" ++ '\n' :: (body ++ '\n' :: txt "```")
            = '`' :: '`' :: '`' :: '\n' :: (body ++ '\n' :: txt "```") from rfl]
      rfl
    rw [hjson]
    simp only [Bool.false_eq_true, if_false]
    rw [if_pos (listStartsWith_append _ _)]
    rw [show txt "```" = '`' :: txt "``" from rfl, removeOpenFence_here]
    exact removeCloseFence_here body
  · intro h
    have hjson : listStartsWith (txt "```json") (jsTrim t) = false := by
      cases hj : listStartsWith (txt "```json") (jsTrim t) with
      | false => rfl
      | true =>
        exact absurd (listStartsWith_of_append (txt "```") (txt "json") _
          (by rw [show txt "```" ++ txt "json" = txt "```json" from rfl]; exact hj)) (by simp [h])
    unfold cleanResponse stripCodeFences
    rw [hjson, h]
    rfl
  · intro h
    unfold stripCodeFences
    rw [if_pos (listStartsWith_append _ _)]
    rw [show txt "```json" = '`' :: txt "``json" from rfl, removeOpenFence_here]
    exact removeCloseFence_skip body h

/-- Witness for C3: a fenced payload, a generic-fenced payload, an unfenced
text and an unclosed fence, each at a concrete value. -/
theorem claim_C3_witness :
    stripCodeFences (txt "```json" ++ '\n' :: (txt "\x7b\"a\":1\x7d" ++ '\n' :: txt "```"))
      = txt "\x7b\"a\":1\x7d" ∧
    cleanResponse (txt "hello") = jsTrim (txt "hello") ∧
    stripCodeFences (txt "```json" ++ '\n' :: txt "\x7b\x7d") = txt "\x7b\x7d" := by
  obtain ⟨-, h1, -, h3, h4⟩ := claim_C3 (txt "\x7b\"a\":1\x7d") (txt "hello")
  exact ⟨h1, h3 (by decide), by
    obtain ⟨-, -, -, -, h4'⟩ := claim_C3 (txt "\x7b\x7d") (txt "hello")
    exact h4' (by decide)⟩

/-- **C10.**  Whatever the environment does, an evaluation run never touches
the idea slot — nor the credential slots, the category, or the key-input
flag; only the evaluation, the in-flight flag, `showEvaluation`, `error` and
`debugInfo` can change. -/
theorem claim_C10 (env : EvalEnv) (st : SessionState) :
    (evaluateAIIdea env st).currentIdea = st.currentIdea ∧
    (evaluateAIIdea env st).apiKey = st.apiKey ∧
    (evaluateAIIdea env st).tempApiKey = st.tempApiKey ∧
    (evaluateAIIdea env st).showApiKeyInput = st.showApiKeyInput ∧
    (evaluateAIIdea env st).selectedCategory = st.selectedCategory := by
  unfold evaluateAIIdea evalCatch
  repeat' split
  all_goals exact ⟨rfl, rfl, rfl, rfl, rfl⟩

/-- **C7** (amended).  With no credential stored, both round trips are
blocked before any gateway interaction (the result is independent of the
environment) and neither writes the error slot; generation surfaces the
configuration-required state by opening the key input, while evaluation
returns with the state entirely unchanged. -/
theorem claim_C7 (env : GenEnv) (env' : EvalEnv) (st : SessionState)
    (hkey : (jsTrim st.apiKey).isEmpty = true) :
    generateAIIdea env st = { st with showApiKeyInput := true } ∧
    evaluateAIIdea env' st = st := by
  constructor
  · unfold generateAIIdea
    simp [hkey]
  · unfold evaluateAIIdea
    cases h : st.currentIdea with
    | none => rfl
    | some i => simp [hkey]

/-- Witness for C7 at a state holding an idea but no credential. -/
theorem claim_C7_witness :
    generateAIIdea genEnvFail stNoKeyIdea = { stNoKeyIdea with showApiKeyInput := true } ∧
    evaluateAIIdea evalEnvFail stNoKeyIdea = stNoKeyIdea :=
  claim_C7 genEnvFail evalEnvFail stNoKeyIdea rfl

/-- Counterexample to C7 as stated: with an idea present and no credential,
invoking evaluation surfaces nothing at all — the state (key-input flag and
error slot included) is returned unchanged, so no distinguishable
configuration-required state arises for the evaluation operation. -/
theorem claim_C7_cex :
    stNoKeyIdea.currentIdea = some ideaStub ∧
    stNoKeyIdea.showApiKeyInput = false ∧
    stNoKeyIdea.error = [] ∧
    evaluateAIIdea evalEnvFail stNoKeyIdea = stNoKeyIdea :=
  ⟨rfl, rfl, rfl, rfl⟩

/-- **C6** (the code lacks the guard the spec requires).  In a state whose
in-flight flags are both set, invoking either operation still transitions the
state (here: it rewrites `debugInfo`, having cleared `error` and re-entered
the round trip), so no session-state-layer re-entrancy guard exists. -/
theorem claim_C6 :
    stBusy.isGenerating = true ∧ stBusy.isEvaluating = true ∧
    (generateAIIdea genEnvFail stBusy).debugInfo ≠ stBusy.debugInfo ∧
    (evaluateAIIdea evalEnvFail stBusy).debugInfo ≠ stBusy.debugInfo := by
  refine ⟨rfl, rfl, ?_, ?_⟩ <;> decide

/-- **C4.**  A successful generation round trip stores the new idea, clears
the evaluation slot (and its display flag), and ends with the in-flight flag
down. -/
theorem claim_C4 (env : GenEnv) (st : SessionState) (reply text : Chars) (idea : Idea)
    (hkey : (jsTrim st.apiKey).isEmpty = false)
    (hconn : env.connTest = .ok reply)
    (hgen : env.genContent = .ok text)
    (hparse : parseIdea env.parseMsg env.now text = .ok idea) :
    (generateAIIdea env st).currentIdea = some idea ∧
    (generateAIIdea env st).evaluation = none ∧
    (generateAIIdea env st).showEvaluation = false ∧
    (generateAIIdea env st).isGenerating = false := by
  unfold generateAIIdea
  simp [hkey, hconn, hgen, hparse]

/-- Witness for C4: a full successful run over `ideaText`, starting from a
state that still holds a previous evaluation. -/
theorem claim_C4_witness :
    (generateAIIdea genEnvOK stEvaluated).currentIdea = some ideaParsed ∧
    (generateAIIdea genEnvOK stEvaluated).evaluation = none ∧
    (generateAIIdea genEnvOK stEvaluated).showEvaluation = false ∧
    (generateAIIdea genEnvOK stEvaluated).isGenerating = false :=
  claim_C4 genEnvOK stEvaluated (txt "ok") ideaText ideaParsed rfl rfl rfl rfl

/-- **C5.**  Once past its credential guard a round trip always ends with its
in-flight flag down, and on any failure the catch-block stores the classified
message in the error slot while the idea and evaluation slots keep their
previous values. -/
theorem claim_C5 (env : GenEnv) (env' : EvalEnv) (st : SessionState) :
    ((jsTrim st.apiKey).isEmpty = false →
      (generateAIIdea env st).isGenerating = false ∧
      ∀ m, genFailure env = some m →
        (generateAIIdea env st).currentIdea = st.currentIdea ∧
        (generateAIIdea env st).evaluation = st.evaluation ∧
        (generateAIIdea env st).error = classifyGen m) ∧
    (st.currentIdea ≠ none → (jsTrim st.apiKey).isEmpty = false →
      (evaluateAIIdea env' st).isEvaluating = false ∧
      ∀ m, evalFailure env' = some m →
        (evaluateAIIdea env' st).currentIdea = st.currentIdea ∧
        (evaluateAIIdea env' st).evaluation = st.evaluation ∧
        (evaluateAIIdea env' st).error = classifyEval m) := by
  constructor
  · intro hkey
    refine ⟨?_, ?_⟩
    · unfold generateAIIdea
      simp [hkey]
    · intro m hm
      unfold genFailure at hm
      cases hc : env.connTest with
      | error f =>
        rw [hc] at hm
        injection hm with hm'
        subst hm'
        unfold generateAIIdea
        simp [hkey, hc, genCatch]
      | ok reply =>
        rw [hc] at hm
        cases hg : env.genContent with
        | error m0 =>
          rw [hg] at hm
          injection hm with hm'
          subst hm'
          unfold generateAIIdea
          simp [hkey, hc, hg, genCatch]
        | ok text =>
          rw [hg] at hm
          cases hp : parseIdea env.parseMsg env.now text with
          | error e =>
            simp [hp] at hm
            subst hm
            unfold generateAIIdea
            simp [hkey, hc, hg, hp, genCatch]
          | ok idea =>
            simp [hp] at hm
  · intro hidea hkey
    refine ⟨?_, ?_⟩
    · unfold evaluateAIIdea
      cases hci : st.currentIdea with
      | none => exact absurd hci hidea
      | some i => simp [hkey]
    · intro m hm
      unfold evalFailure at hm
      cases hci : st.currentIdea with
      | none => exact absurd hci hidea
      | some i =>
        cases hg : env'.genContent with
        | error m0 =>
          rw [hg] at hm
          injection hm with hm'
          subst hm'
          unfold evaluateAIIdea
          simp [hkey, hci, hg, evalCatch]
        | ok text =>
          rw [hg] at hm
          cases hp : parseEvaluation env'.parseMsg text with
          | error e =>
            simp [hp] at hm
            subst hm
            unfold evaluateAIIdea
            simp [hkey, hci, hg, hp, evalCatch]
          | ok ev =>
            simp [hp] at hm

/-! ### Codec round trip, strings

`parseStringBody` inverts the serializer's escaping, one character at a
time. -/

theorem hexDigit_hexDigitChar (n : Nat) (h : n < 16) :
    hexDigit? (hexDigitChar n) = some n := by
  interval_cases n <;> rfl

theorem parseStringBody_escape (c : Char) (rest : Chars) :
    parseStringBody (escapeChar c ++ rest)
      = (parseStringBody rest).map (fun p => (c :: p.1, p.2)) := by
  by_cases h1 : c = '"'
  · subst h1
    show parseStringBody ('\\' :: '"' :: rest) = _
    rw [parseStringBody.eq_def]; simp
  by_cases h2 : c = '\\'
  · subst h2
    show parseStringBody ('\\' :: '\\' :: rest) = _
    rw [parseStringBody.eq_def]; simp
  by_cases h3 : c = '\x08'
  · subst h3
    show parseStringBody ('\\' :: 'b' :: rest) = _
    rw [parseStringBody.eq_def]; simp
  by_cases h4 : c = '\t'
  · subst h4
    show parseStringBody ('\\' :: 't' :: rest) = _
    rw [parseStringBody.eq_def]; simp
  by_cases h5 : c = '\n'
  · subst h5
    show parseStringBody ('\\' :: 'n' :: rest) = _
    rw [parseStringBody.eq_def]; simp
  by_cases h6 : c = '\x0c'
  · subst h6
    show parseStringBody ('\\' :: 'f' :: rest) = _
    rw [parseStringBody.eq_def]; simp
  by_cases h7 : c = '\r'
  · subst h7
    show parseStringBody ('\\' :: 'r' :: rest) = _
    rw [parseStringBody.eq_def]; simp
  have hesc0 : escapeChar c =
      if c.toNat < 0x20 then
        ['\\', 'u', '0', '0', hexDigitChar (c.toNat / 16), hexDigitChar (c.toNat % 16)]
      else [c] := by
    unfold escapeChar
    rw [if_neg h1, if_neg h2, if_neg h3, if_neg h4, if_neg h5, if_neg h6, if_neg h7]
  by_cases h8 : c.toNat < 0x20
  · rw [hesc0, if_pos h8]
    have e0 : hexDigit? '0' = some 0 := rfl
    have e1 : hexDigit? (hexDigitChar (c.toNat / 16)) = some (c.toNat / 16) :=
      hexDigit_hexDigitChar _ (by omega)
    have e2 : hexDigit? (hexDigitChar (c.toNat % 16)) = some (c.toNat % 16) :=
      hexDigit_hexDigitChar _ (by omega)
    simp only [List.cons_append, List.nil_append]
    rw [parseStringBody.eq_def]
    simp [e0, e1, e2]
    have hcode : c.toNat / 16 * 16 + c.toNat % 16 = c.toNat := by omega
    rw [hcode, if_pos (Or.inl (by omega) : (c.toNat).isValidChar), Char.ofNat_toNat]
  · rw [hesc0, if_neg h8]
    show parseStringBody (c :: rest) = (parseStringBody rest).map (fun p => (c :: p.1, p.2))
    rw [parseStringBody.eq_def]
    simp [h1, h2, h8]

theorem escapeStr_cons (c : Char) (t : Chars) :
    escapeStr (c :: t) = escapeChar c ++ escapeStr t := by
  simp [escapeStr]

theorem parseStringBody_escStr (s rest : Chars) :
    parseStringBody (escapeStr s ++ '"' :: rest) = some (s, rest) := by
  induction s with
  | nil =>
    show parseStringBody ('"' :: rest) = some ([], rest)
    rw [parseStringBody.eq_def]
    simp
  | cons c t ih =>
    rw [escapeStr_cons, List.append_assoc, parseStringBody_escape, ih]
    rfl

/-! ### Codec round trip, numbers -/

theorem noLeadDigit_takeWhile (r : Chars) (h : noLeadDigit r = true) :
    r.takeWhile Char.isDigit = [] := by
  cases r with
  | nil => rfl
  | cons c t =>
    simp only [noLeadDigit, Bool.not_eq_true'] at h
    simp [List.takeWhile_cons, h]

theorem noLeadDigit_dropWhile (r : Chars) (h : noLeadDigit r = true) :
    r.dropWhile Char.isDigit = r := by
  cases r with
  | nil => rfl
  | cons c t =>
    simp only [noLeadDigit, Bool.not_eq_true'] at h
    simp [List.dropWhile_cons, h]

theorem span_digits (ds r : Chars) (hds : ∀ c ∈ ds, c.isDigit = true)
    (hr : noLeadDigit r = true) :
    (ds ++ r).takeWhile Char.isDigit = ds ∧ (ds ++ r).dropWhile Char.isDigit = r := by
  induction ds with
  | nil => exact ⟨noLeadDigit_takeWhile r hr, noLeadDigit_dropWhile r hr⟩
  | cons c t ih =>
    have hc : c.isDigit = true := hds c (by simp)
    have ⟨ih1, ih2⟩ := ih (fun x hx => hds x (by simp [hx]))
    constructor
    · simp [List.takeWhile_cons, hc, ih1]
    · simp [List.dropWhile_cons, hc, ih2]

theorem numDelim_noLead (r : Chars) (h : numDelim r = true) : noLeadDigit r = true := by
  cases r with
  | nil => rfl
  | cons c t =>
    simp only [numDelim, Bool.not_eq_true', Bool.or_eq_false_iff] at h
    simp [noLeadDigit, h.1.1.1]

theorem numDelim_facts (c : Char) (t : Chars) (h : numDelim (c :: t) = true) :
    c.isDigit = false ∧ c ≠ '.' ∧ c ≠ 'e' ∧ c ≠ 'E' := by
  simp only [numDelim, Bool.not_eq_true', Bool.or_eq_false_iff, beq_eq_false_iff_ne] at h
  obtain ⟨⟨⟨hd, hdot⟩, he⟩, hE⟩ := h
  exact ⟨hd, hdot, he, hE⟩

theorem digit_ne_sign (c : Char) (h : c.isDigit = true) : c ≠ '+' ∧ c ≠ '-' := by
  constructor <;> (intro hc; rw [hc] at h; exact absurd h (by decide))

theorem parseExpTail_spec (neg : Bool) (ip : Chars) (fp : Option Chars)
    (sg : Option Bool) (ds rest : Chars)
    (hne : ds ≠ []) (hds : ∀ c ∈ ds, c.isDigit = true) (hrest : numDelim rest = true) :
    parseExpTail neg ip fp (signChars sg ++ (ds ++ rest))
      = some (⟨neg, ip, fp, some (sg, ds)⟩, rest) := by
  obtain ⟨d, ds', rfl⟩ := List.exists_cons_of_ne_nil hne
  have hd : d.isDigit = true := hds d (by simp)
  obtain ⟨hplus, hminus⟩ := digit_ne_sign d hd
  have hspan := span_digits (d :: ds') rest hds (numDelim_noLead _ hrest)
  cases sg with
  | none =>
    show parseExpTail neg ip fp ((d :: ds') ++ rest) = _
    simp only [List.cons_append]
    unfold parseExpTail
    simp [hplus, hminus]
    exact ⟨hd, by simpa using hspan.1, by simpa using hspan.2⟩
  | some b =>
    cases b with
    | true =>
      show parseExpTail neg ip fp ('-' :: ((d :: ds') ++ rest)) = _
      unfold parseExpTail
      simp
      exact ⟨hd, by simpa using hspan.1, by simpa using hspan.2⟩
    | false =>
      show parseExpTail neg ip fp ('+' :: ((d :: ds') ++ rest)) = _
      unfold parseExpTail
      simp
      exact ⟨hd, by simpa using hspan.1, by simpa using hspan.2⟩

theorem parseExp_spec (neg : Bool) (ip : Chars) (fp : Option Chars)
    (ep : Option (Option Bool × Chars)) (rest : Chars)
    (hep : expPartOK ep)
    (hrest : numDelim rest = true) :
    parseExp neg ip fp (expChars ep ++ rest) = some (⟨neg, ip, fp, ep⟩, rest) := by
  cases ep with
  | none =>
    show parseExp neg ip fp rest = _
    cases rest with
    | nil => rfl
    | cons c t =>
      obtain ⟨-, -, he, hE⟩ := numDelim_facts c t hrest
      unfold parseExp
      simp [he, hE]
  | some p =>
    obtain ⟨sg, ds⟩ := p
    obtain ⟨hne, hds⟩ := hep
    show parseExp neg ip fp (('e' :: (signChars sg ++ ds)) ++ rest) = _
    rw [show ('e' :: (signChars sg ++ ds)) ++ rest
        = 'e' :: (signChars sg ++ (ds ++ rest)) from by simp]
    show parseExpTail neg ip fp (signChars sg ++ (ds ++ rest)) = _
    exact parseExpTail_spec neg ip fp sg ds rest hne hds hrest

theorem parseNumTail_spec (neg : Bool) (ip : Chars) (fp : Option Chars)
    (ep : Option (Option Bool × Chars)) (rest : Chars)
    (hfp : digitsPartOK fp)
    (hep : expPartOK ep)
    (hrest : numDelim rest = true) :
    parseNumTail neg ip (fracChars fp ++ (expChars ep ++ rest))
      = some (⟨neg, ip, fp, ep⟩, rest) := by
  have hnolead : noLeadDigit (expChars ep ++ rest) = true := by
    cases ep with
    | none => exact numDelim_noLead _ hrest
    | some p => rfl
  cases fp with
  | none =>
    show parseNumTail neg ip (expChars ep ++ rest) = _
    cases ep with
    | none =>
      show parseNumTail neg ip rest = _
      cases rest with
      | nil => rfl
      | cons c0 t0 =>
        obtain ⟨-, hdot, -, -⟩ := numDelim_facts c0 t0 hrest
        unfold parseNumTail
        have hs := parseExp_spec neg ip none none (c0 :: t0) trivial hrest
        simp only [expChars, List.nil_append] at hs
        simp [hdot, hs]
    | some p =>
      obtain ⟨sg, ds⟩ := p
      show parseNumTail neg ip (('e' :: (signChars sg ++ ds)) ++ rest) = _
      simp only [List.cons_append]
      unfold parseNumTail
      have hs := parseExp_spec neg ip none (some (sg, ds)) rest hep hrest
      simp only [expChars, List.cons_append] at hs
      simpa using hs
  | some ds =>
    obtain ⟨hne, hds⟩ := hfp
    show parseNumTail neg ip (('.' :: ds) ++ (expChars ep ++ rest)) = _
    simp only [List.cons_append]
    have hspan := span_digits ds (expChars ep ++ rest) hds hnolead
    unfold parseNumTail
    simp [hspan.1, hspan.2, hne, parseExp_spec neg ip (some ds) ep rest hep hrest]

theorem digit_ne_minus (c : Char) (h : c.isDigit = true) : c ≠ '-' := by
  intro hc
  rw [hc] at h
  exact absurd h (by decide)

theorem fpPartWF_elim (fp : Option Chars)
    (h : (match fp with
          | none => true
          | some ds => !ds.isEmpty && ds.all Char.isDigit) = true) :
    digitsPartOK fp := by
  cases fp with
  | none => trivial
  | some ds =>
    rw [Bool.and_eq_true] at h
    exact ⟨by simpa using h.1, List.all_eq_true.mp h.2⟩

theorem epPartWF_elim (ep : Option (Option Bool × Chars))
    (h : (match ep with
          | none => true
          | some (_, ds) => !ds.isEmpty && ds.all Char.isDigit) = true) :
    expPartOK ep := by
  cases ep with
  | none => trivial
  | some p =>
    obtain ⟨sg, ds⟩ := p
    rw [Bool.and_eq_true] at h
    exact ⟨by simpa using h.1, List.all_eq_true.mp h.2⟩

theorem parseNum_spec (t : NumTok) (rest : Chars) (hwf : numWF t = true)
    (hrest : numDelim rest = true) :
    parseNum (numToken t ++ rest) = some (t, rest) := by
  obtain ⟨neg, ip, fp, ep⟩ := t
  simp only [numWF] at hwf
  rw [Bool.and_eq_true, Bool.and_eq_true] at hwf
  obtain ⟨⟨hipw, hfpw⟩, hepw⟩ := hwf
  have hfp' := fpPartWF_elim fp hfpw
  have hep' := epPartWF_elim ep hepw
  have hnl : noLeadDigit (fracChars fp ++ (expChars ep ++ rest)) = true := by
    cases fp with
    | none =>
      show noLeadDigit (expChars ep ++ rest) = true
      cases ep with
      | none => exact numDelim_noLead _ hrest
      | some p => rfl
    | some ds => rfl
  cases ip with
  | nil => simp at hipw
  | cons c ds =>
    have htail := parseNumTail_spec neg (c :: ds) fp ep rest hfp' hep' hrest
    have hc : c.isDigit = true := by
      cases ds with
      | nil => simpa using hipw
      | cons d0 ds' =>
        rw [Bool.and_eq_true, Bool.and_eq_true] at hipw
        exact hipw.1.1
    have hdsdig : ∀ x ∈ ds, x.isDigit = true := by
      cases ds with
      | nil => simp
      | cons d0 ds' =>
        rw [Bool.and_eq_true, Bool.and_eq_true] at hipw
        exact List.all_eq_true.mp hipw.2
    have hzero : ds ≠ [] → c ≠ '0' := by
      cases ds with
      | nil => simp
      | cons d0 ds' =>
        intro hne
        rw [Bool.and_eq_true, Bool.and_eq_true] at hipw
        simpa using hipw.1.2
    have hminus := digit_ne_minus c hc
    have hspan := span_digits ds (fracChars fp ++ (expChars ep ++ rest)) hdsdig hnl
    have harg : numToken ⟨neg, c :: ds, fp, ep⟩ ++ rest
        = (if neg then ['-'] else [])
            ++ (c :: (ds ++ (fracChars fp ++ (expChars ep ++ rest)))) := by
      simp [numToken]
    rw [harg]
    cases neg with
    | false =>
      show parseNum (c :: (ds ++ (fracChars fp ++ (expChars ep ++ rest)))) = _
      unfold parseNum
      by_cases hc0 : c = '0'
      · have hds : ds = [] := by
          by_contra hne
          exact absurd hc0 (hzero hne)
        subst hds
        subst hc0
        simpa using htail
      · simp [hminus, hc0, hc, hspan.1, hspan.2, htail]
    | true =>
      show parseNum ('-' :: (c :: (ds ++ (fracChars fp ++ (expChars ep ++ rest))))) = _
      unfold parseNum
      by_cases hc0 : c = '0'
      · have hds : ds = [] := by
          by_contra hne
          exact absurd hc0 (hzero hne)
        subst hds
        subst hc0
        simpa using htail
      · simp [hminus, hc0, hc, hspan.1, hspan.2, htail]

/-! ### Codec round trip, heads and dispatch -/

theorem digit_facts (c : Char) (h : c.isDigit = true) :
    jsonWs c = false ∧ c ≠ ']' ∧ c ≠ '{' ∧ c ≠ '[' ∧ c ≠ '"' ∧
      c ≠ 'n' ∧ c ≠ 't' ∧ c ≠ 'f' := by
  refine ⟨?_, ?_, ?_, ?_, ?_, ?_, ?_, ?_⟩
  · cases hw : jsonWs c with
    | false => rfl
    | true =>
      simp only [jsonWs, Bool.or_eq_true, beq_iff_eq] at hw
      rcases hw with ((rfl | rfl) | rfl) | rfl <;> exact absurd h (by decide)
  all_goals exact fun hc => absurd (hc ▸ h) (by decide)

theorem numWF_ip_head (neg : Bool) (ip : Chars) (fp : Option Chars)
    (ep : Option (Option Bool × Chars)) (h : numWF ⟨neg, ip, fp, ep⟩ = true) :
    ∃ c ds, ip = c :: ds ∧ c.isDigit = true := by
  simp only [numWF] at h
  rw [Bool.and_eq_true, Bool.and_eq_true] at h
  obtain ⟨⟨hip, -⟩, -⟩ := h
  cases ip with
  | nil => simp at hip
  | cons c ds =>
    refine ⟨c, ds, rfl, ?_⟩
    cases ds with
    | nil => simpa using hip
    | cons d0 ds' =>
      rw [Bool.and_eq_true, Bool.and_eq_true] at hip
      exact hip.1.1

/-- The text of a well-formed number token starts with a character that is
neither whitespace nor a closing bracket. -/
theorem numToken_head (tok : NumTok) (hwf : numWF tok = true) :
    ∃ c q, numToken tok = c :: q ∧ jsonWs c = false ∧ c ≠ ']' := by
  obtain ⟨neg, ip, fp, ep⟩ := tok
  obtain ⟨c, ds, rfl, hc⟩ := numWF_ip_head neg ip fp ep hwf
  cases neg with
  | true =>
    exact ⟨'-', (c :: ds) ++ fracChars fp ++ expChars ep,
      by simp [numToken], by decide, by decide⟩
  | false =>
    obtain ⟨hws, hbr, -⟩ := digit_facts c hc
    exact ⟨c, ds ++ fracChars fp ++ expChars ep,
      by simp [numToken], hws, hbr⟩

/-- Every serialized well-formed value starts with a character that is
neither whitespace nor a closing bracket (a stored number emits either its
double's formatted numeral or `null`). -/
theorem jsonStr_head {D : Type} (den : NumTok → D) (fin : D → Bool)
    (out : D → NumTok) (hout : ∀ x, fin x = true → numWF (out x) = true)
    (v : Json) (hwf : jsonWF v = true) :
    ∃ c t', jsonStr den fin out v = c :: t' ∧ jsonWs c = false ∧ c ≠ ']' := by
  cases v with
  | null => exact ⟨'n', _, rfl, by decide, by decide⟩
  | bool b => cases b with
    | true => exact ⟨'t', _, rfl, by decide, by decide⟩
    | false => exact ⟨'f', _, rfl, by decide, by decide⟩
  | str s => exact ⟨'"', _, rfl, by decide, by decide⟩
  | arr xs => exact ⟨'[', _, rfl, by decide, by decide⟩
  | obj kvs => exact ⟨'{', _, rfl, by decide, by decide⟩
  | num tok =>
    by_cases hf : fin (den tok) = true
    · obtain ⟨c, q, hq, hws, hbr⟩ := numToken_head (out (den tok)) (hout _ hf)
      exact ⟨c, q, by simp [jsonStr, numEmit, hf, hq], hws, hbr⟩
    · exact ⟨'n', txt "ull",
        by simp [jsonStr, numEmit, hf]; rfl, by decide, by decide⟩

theorem skipWs_not_ws (c : Char) (t : Chars) (h : jsonWs c = false) :
    skipWs (c :: t) = c :: t := by
  simp [skipWs, List.dropWhile_cons, h]

/-- A value whose input starts with a number's head parses through
`parseNum`. -/
theorem parseVal_num_step (fuel : Nat) (c : Char) (t : Chars)
    (h1 : c ≠ '{') (h2 : c ≠ '[') (h3 : c ≠ '"') (h4 : c ≠ 'n') (h5 : c ≠ 't')
    (h6 : c ≠ 'f') :
    parseVal (fuel + 1) (c :: t)
      = (parseNum (c :: t)).map (fun p => (Json.num p.1, p.2)) := by
  rw [parseVal]
  all_goals intro r heq
  all_goals injection heq with hc _
  all_goals first
    | exact absurd hc h1
    | exact absurd hc h2
    | exact absurd hc h3
    | exact absurd hc h4
    | exact absurd hc h5
    | exact absurd hc h6

theorem parseVal_obj_step (fuel : Nat) (r : Chars) :
    parseVal (fuel + 1) ('{' :: r)
      = (match skipWs r with
         | '}' :: r2 => some (.obj [], r2)
         | r2 => (parseFields fuel r2).map (fun p => (Json.obj (collapseFields p.1), p.2))) := by
  rw [parseVal]

theorem parseVal_arr_step (fuel : Nat) (r : Chars) :
    parseVal (fuel + 1) ('[' :: r)
      = (match skipWs r with
         | ']' :: r2 => some (.arr [], r2)
         | r2 => (parseItems fuel r2).map (fun p => (Json.arr p.1, p.2))) := by
  rw [parseVal]

theorem parseVal_str_step (fuel : Nat) (r : Chars) :
    parseVal (fuel + 1) ('"' :: r)
      = (parseStringBody r).map (fun p => (Json.str p.1, p.2)) := by
  rw [parseVal]

theorem parseVal_null_step (fuel : Nat) (r : Chars) :
    parseVal (fuel + 1) ('n' :: 'u' :: 'l' :: 'l' :: r) = some (.null, r) := by
  rw [parseVal]

theorem parseVal_true_step (fuel : Nat) (r : Chars) :
    parseVal (fuel + 1) ('t' :: 'r' :: 'u' :: 'e' :: r) = some (.bool true, r) := by
  rw [parseVal]

theorem parseVal_false_step (fuel : Nat) (r : Chars) :
    parseVal (fuel + 1) ('f' :: 'a' :: 'l' :: 's' :: 'e' :: r) = some (.bool false, r) := by
  rw [parseVal]

theorem parseItems_step (fuel : Nat) (s : Chars) :
    parseItems (fuel + 1) s
      = (match parseVal fuel s with
         | none => none
         | some (v, r) =>
           match skipWs r with
           | ',' :: r2 => (parseItems fuel (skipWs r2)).map (fun p => (v :: p.1, p.2))
           | ']' :: r2 => some ([v], r2)
           | _ => none) := by
  rw [parseItems]

theorem parseFields_step (fuel : Nat) (r : Chars) :
    parseFields (fuel + 1) ('"' :: r)
      = (match parseStringBody r with
         | none => none
         | some (k, r1) =>
           match skipWs r1 with
           | ':' :: r2 =>
             (match parseVal fuel (skipWs r2) with
              | none => none
              | some (v, r3) =>
                match skipWs r3 with
                | ',' :: r4 => (parseFields fuel (skipWs r4)).map (fun p => ((k, v) :: p.1, p.2))
                | '}' :: r4 => some ([(k, v)], r4)
                | _ => none)
           | _ => none)
      := by
  rw [parseFields]

/-- Witness for C5: both round trips failing at their first external call,
from a state with credential and idea present. -/
theorem claim_C5_witness :
    (generateAIIdea genEnvFail stWithIdea).error
        = classifyGen (txt "API Connection Failed: " ++ txt "boom") ∧
    (generateAIIdea genEnvFail stWithIdea).isGenerating = false ∧
    (evaluateAIIdea evalEnvFail stWithIdea).error = classifyEval (txt "boom") ∧
    (evaluateAIIdea evalEnvFail stWithIdea).isEvaluating = false := by
  obtain ⟨hg, he⟩ := claim_C5 genEnvFail evalEnvFail stWithIdea
  obtain ⟨hflag, hfail⟩ := hg rfl
  obtain ⟨hflag', hfail'⟩ := he (Option.some_ne_none ideaStub) rfl
  exact ⟨(hfail _ rfl).2.2, hflag, (hfail' _ rfl).2.2, hflag'⟩


/-! ### Codec round trip, objects and the full value -/

theorem insertField_fresh (o : List (Chars × Json)) (k : Chars) (v : Json)
    (h : o.all (fun kv => kv.1 != k) = true) :
    insertField o k v = o ++ [(k, v)] := by
  induction o with
  | nil => rfl
  | cons kv t ih =>
    obtain ⟨k1, v1⟩ := kv
    rw [List.all_cons, Bool.and_eq_true] at h
    have hne : ¬(k1 = k) := by simpa using h.1
    simp [insertField, hne, ih h.2]

theorem collapse_aux (ms : List (Chars × Json)) :
    ∀ acc, keysFresh ms = true →
      (∀ kv ∈ ms, acc.all (fun kv2 => kv2.1 != kv.1) = true) →
      ms.foldl (fun a kv => insertField a kv.1 kv.2) acc = acc ++ ms := by
  induction ms with
  | nil => intro acc _ _; simp
  | cons hd t ih =>
    intro acc hms hcross
    obtain ⟨k, v⟩ := hd
    simp only [keysFresh, Bool.and_eq_true] at hms
    have hacc : acc.all (fun kv2 => kv2.1 != k) = true := hcross (k, v) (by simp)
    have hcross2 : ∀ kv ∈ t, (acc ++ [(k, v)]).all (fun kv2 => kv2.1 != kv.1) = true := by
      intro kv hkv
      rw [List.all_append, Bool.and_eq_true]
      refine ⟨hcross kv (by simp [hkv]), ?_⟩
      have hk := List.all_eq_true.mp hms.1 kv hkv
      simp only [List.all_cons, List.all_nil, Bool.and_true]
      simp only [bne_iff_ne] at hk ⊢
      exact fun he => hk he.symm
    simp only [List.foldl_cons]
    rw [insertField_fresh acc k v hacc, ih (acc ++ [(k, v)]) hms.2 hcross2]
    simp

/-- A member list without key repetition is exactly what `JSON.parse`
object construction rebuilds from it. -/
theorem collapse_fresh (kvs : List (Chars × Json)) (h : keysFresh kvs = true) :
    collapseFields kvs = kvs := by
  have := collapse_aux kvs [] h (fun kv _ => rfl)
  simpa [collapseFields] using this

theorem numDelim_cons (c : Char) (t : Chars)
    (h : c.isDigit = false ∧ c ≠ '.' ∧ c ≠ 'e' ∧ c ≠ 'E') :
    numDelim (c :: t) = true := by
  simp [numDelim, h.1, h.2.1, h.2.2.1, h.2.2.2]

theorem skipWs_comma (r : Chars) : skipWs (',' :: r) = ',' :: r :=
  skipWs_not_ws ',' r (by decide)

theorem skipWs_colon (r : Chars) : skipWs (':' :: r) = ':' :: r :=
  skipWs_not_ws ':' r (by decide)

theorem skipWs_rbrace (r : Chars) : skipWs ('}' :: r) = '}' :: r :=
  skipWs_not_ws '}' r (by decide)

theorem skipWs_rbracket (r : Chars) : skipWs (']' :: r) = ']' :: r :=
  skipWs_not_ws ']' r (by decide)

theorem itemsStr_cons_head {D : Type} (den : NumTok → D) (fin : D → Bool)
    (out : D → NumTok) (hout : ∀ x, fin x = true → numWF (out x) = true)
    (x : Json) (xs : List Json) (hx : jsonWF x = true) :
    ∃ c t2, itemsStr den fin out (x :: xs) = c :: t2 ∧ jsonWs c = false ∧ c ≠ ']' := by
  obtain ⟨c, t1, heq, hws, hne⟩ := jsonStr_head den fin out hout x hx
  cases xs with
  | nil =>
    refine ⟨c, t1, ?_, hws, hne⟩
    simpa [itemsStr] using heq
  | cons y t =>
    refine ⟨c, t1 ++ ',' :: itemsStr den fin out (y :: t), ?_, hws, hne⟩
    simp [itemsStr, heq]

theorem fieldsStr_cons_head {D : Type} (den : NumTok → D) (fin : D → Bool)
    (out : D → NumTok) (k : Chars) (v : Json) (t : List (Chars × Json)) :
    ∃ q, fieldsStr den fin out ((k, v) :: t) = '"' :: q := by
  cases t with
  | nil =>
    exact ⟨escapeStr k ++ '"' :: ':' :: jsonStr den fin out v, by simp [fieldsStr]⟩
  | cons m t2 =>
    exact ⟨escapeStr k ++ '"' :: ':' ::
        (jsonStr den fin out v ++ ',' :: fieldsStr den fin out (m :: t2)),
      by simp [fieldsStr]⟩

theorem parseVal_obj_step2 (fuel : Nat) (c : Char) (tl : Chars)
    (hws : jsonWs c = false) (hne : c ≠ '}') :
    parseVal (fuel + 1) ('{' :: c :: tl)
      = (parseFields fuel (c :: tl)).map (fun p => (Json.obj (collapseFields p.1), p.2)) := by
  rw [parseVal_obj_step, skipWs_not_ws c tl hws]
  split
  · next heq => injection heq with h1 _; exact absurd h1 hne
  · rfl

theorem parseVal_arr_step2 (fuel : Nat) (c : Char) (tl : Chars)
    (hws : jsonWs c = false) (hne : c ≠ ']') :
    parseVal (fuel + 1) ('[' :: c :: tl)
      = (parseItems fuel (c :: tl)).map (fun p => (Json.arr p.1, p.2)) := by
  rw [parseVal_arr_step, skipWs_not_ws c tl hws]
  split
  · next heq => injection heq with h1 _; exact absurd h1 hne
  · rfl

theorem parseVal_obj_empty (fuel : Nat) (rest : Chars) :
    parseVal (fuel + 1) ('{' :: '}' :: rest) = some (.obj [], rest) := by
  rw [parseVal_obj_step, skipWs_rbrace]
  rfl

theorem parseVal_arr_empty (fuel : Nat) (rest : Chars) :
    parseVal (fuel + 1) ('[' :: ']' :: rest) = some (.arr [], rest) := by
  rw [parseVal_arr_step, skipWs_rbracket]
  rfl

/-- Any well-formed numeral's text parses as that number. -/
theorem parseVal_numToken (fuel : Nat) (u : NumTok) (rest : Chars)
    (hwf : numWF u = true) (hrest : numDelim rest = true) :
    parseVal (fuel + 1) (numToken u ++ rest) = some (Json.num u, rest) := by
  obtain ⟨neg, ip, fp, ep⟩ := u
  obtain ⟨c, ds, hip, hcdig⟩ := numWF_ip_head neg ip fp ep hwf
  subst hip
  have hps := parseNum_spec ⟨neg, c :: ds, fp, ep⟩ rest hwf hrest
  cases neg with
  | false =>
    have h1 : numToken ⟨false, c :: ds, fp, ep⟩ ++ rest
        = c :: (ds ++ (fracChars fp ++ (expChars ep ++ rest))) := by
      simp [numToken]
    obtain ⟨-, -, hbrace, hbrk, hquo, hn, ht, hf⟩ := digit_facts c hcdig
    rw [h1, parseVal_num_step fuel c _ hbrace hbrk hquo hn ht hf, ← h1, hps]
    rfl
  | true =>
    have h1 : numToken ⟨true, c :: ds, fp, ep⟩ ++ rest
        = '-' :: (c :: (ds ++ (fracChars fp ++ (expChars ep ++ rest)))) := by
      simp [numToken]
    rw [h1, parseVal_num_step fuel '-' _ (by decide) (by decide) (by decide)
        (by decide) (by decide) (by decide), ← h1, hps]
    rfl

/-- Re-serialization keeps member keys, so key tests are unchanged. -/
theorem reFields_all_key {D : Type} (den : NumTok → D) (fin : D → Bool)
    (out : D → NumTok) (t : List (Chars × Json)) (k : Chars) :
    (reFields den fin out t).all (fun kv => kv.1 != k)
      = t.all (fun kv => kv.1 != k) := by
  induction t with
  | nil => rfl
  | cons kv s ih =>
    obtain ⟨k2, v2⟩ := kv
    simp [reFields, ih]

/-- Re-serialization keeps member keys, so freshness is preserved. -/
theorem keysFresh_reFields {D : Type} (den : NumTok → D) (fin : D → Bool)
    (out : D → NumTok) (ms : List (Chars × Json)) :
    keysFresh (reFields den fin out ms) = keysFresh ms := by
  induction ms with
  | nil => rfl
  | cons kv t ih =>
    obtain ⟨k, v⟩ := kv
    simp only [reFields, keysFresh, ih, reFields_all_key]

/-- The serializer-parser round trip, by simultaneous induction on the
parser's fuel: a serialized well-formed value followed by any remainder no
number could absorb parses back to its re-parsed image `reVal` — the same
value with every stored numeral replaced by the formatting of its double,
or by `null` when that double is not finite. -/
theorem rtAll {D : Type} (den : NumTok → D) (fin : D → Bool) (out : D → NumTok)
    (hout : ∀ x, fin x = true → numWF (out x) = true) (fuel : Nat) :
    (∀ v rest, jsonWF v = true → (jsonStr den fin out v).length < fuel →
        numDelim rest = true →
        parseVal fuel (jsonStr den fin out v ++ rest)
          = some (reVal den fin out v, rest)) ∧
    (∀ x xs rest, jsonWF x = true → itemsWF xs = true →
        (itemsStr den fin out (x :: xs)).length + 1 < fuel →
        parseItems fuel (itemsStr den fin out (x :: xs) ++ ']' :: rest)
          = some (reVal den fin out x :: reItems den fin out xs, rest)) ∧
    (∀ k v kvs rest, jsonWF v = true → fieldsWF kvs = true →
        (fieldsStr den fin out ((k, v) :: kvs)).length + 1 < fuel →
        parseFields fuel (fieldsStr den fin out ((k, v) :: kvs) ++ '}' :: rest)
          = some ((k, reVal den fin out v) :: reFields den fin out kvs, rest)) := by
  induction fuel with
  | zero =>
    refine ⟨?_, ?_, ?_⟩
    · intro v rest _ hfuel _
      exact absurd hfuel (by omega)
    · intro x xs rest _ _ hfuel
      exact absurd hfuel (by omega)
    · intro k v kvs rest _ _ hfuel
      exact absurd hfuel (by omega)
  | succ fuel ih =>
    obtain ⟨ihV, ihI, ihF⟩ := ih
    refine ⟨?_, ?_, ?_⟩
    · intro v rest hwf hfuel hrest
      cases v with
      | null =>
        have h0 : jsonStr den fin out Json.null ++ rest
            = 'n' :: 'u' :: 'l' :: 'l' :: rest := rfl
        rw [h0]
        exact parseVal_null_step fuel rest
      | bool b =>
        cases b with
        | true =>
          have h0 : jsonStr den fin out (Json.bool true) ++ rest
              = 't' :: 'r' :: 'u' :: 'e' :: rest := rfl
          rw [h0]
          exact parseVal_true_step fuel rest
        | false =>
          have h0 : jsonStr den fin out (Json.bool false) ++ rest
              = 'f' :: 'a' :: 'l' :: 's' :: 'e' :: rest := rfl
          rw [h0]
          exact parseVal_false_step fuel rest
      | str s =>
        have h0 : jsonStr den fin out (Json.str s) ++ rest
            = '"' :: (escapeStr s ++ '"' :: rest) := by
          simp [jsonStr]
        rw [h0, parseVal_str_step, parseStringBody_escStr]
        rfl
      | num t =>
        have hwf2 : numWF t = true := by simpa [jsonWF] using hwf
        by_cases hfd : fin (den t) = true
        · have hemit : jsonStr den fin out (Json.num t) = numToken (out (den t)) := by
            simp [jsonStr, numEmit, hfd]
          have hre : reVal den fin out (Json.num t) = Json.num (out (den t)) := by
            simp [reVal, hfd]
          rw [hemit, hre]
          exact parseVal_numToken fuel (out (den t)) rest (hout _ hfd) hrest
        · have hemit : jsonStr den fin out (Json.num t) = txt "null" := by
            simp [jsonStr, numEmit, hfd]
          have hre : reVal den fin out (Json.num t) = Json.null := by
            simp [reVal, hfd]
          rw [hemit, hre,
              show (txt "null" ++ rest : Chars) = 'n' :: 'u' :: 'l' :: 'l' :: rest from rfl]
          exact parseVal_null_step fuel rest
      | arr xs =>
        cases xs with
        | nil =>
          have h0 : jsonStr den fin out (Json.arr []) ++ rest = '[' :: ']' :: rest := by
            simp [jsonStr, itemsStr]
          rw [h0]
          exact parseVal_arr_empty fuel rest
        | cons x xs2 =>
          have hwf2 : jsonWF x = true ∧ itemsWF xs2 = true := by
            simpa [jsonWF, itemsWF, Bool.and_eq_true] using hwf
          obtain ⟨c, t2, hit, hws, hne⟩ :=
            itemsStr_cons_head den fin out hout x xs2 hwf2.1
          have h0 : jsonStr den fin out (Json.arr (x :: xs2)) ++ rest
              = '[' :: c :: (t2 ++ ']' :: rest) := by
            simp [jsonStr, hit]
          have hfa : (itemsStr den fin out (x :: xs2)).length + 1 < fuel := by
            have hlen : (jsonStr den fin out (Json.arr (x :: xs2))).length
                = (itemsStr den fin out (x :: xs2)).length + 2 := by
              simp [jsonStr]
            omega
          have h1 : c :: (t2 ++ ']' :: rest)
              = itemsStr den fin out (x :: xs2) ++ ']' :: rest := by
            simp [hit]
          rw [h0, parseVal_arr_step2 fuel c _ hws hne, h1,
              ihI x xs2 rest hwf2.1 hwf2.2 hfa]
          rfl
      | obj kvs =>
        cases kvs with
        | nil =>
          have h0 : jsonStr den fin out (Json.obj []) ++ rest = '{' :: '}' :: rest := by
            simp [jsonStr, fieldsStr]
          rw [h0]
          exact parseVal_obj_empty fuel rest
        | cons kv t =>
          obtain ⟨k, v⟩ := kv
          have hsplit : keysFresh ((k, v) :: t) = true ∧ jsonWF v = true ∧
              fieldsWF t = true := by
            simp only [jsonWF, Bool.and_eq_true] at hwf
            have hf := hwf.2
            simp only [fieldsWF, Bool.and_eq_true] at hf
            exact ⟨hwf.1, hf.1, hf.2⟩
          obtain ⟨q, hq⟩ := fieldsStr_cons_head den fin out k v t
          have h0 : jsonStr den fin out (Json.obj ((k, v) :: t)) ++ rest
              = '{' :: '"' :: (q ++ '}' :: rest) := by
            simp [jsonStr, hq]
          have hfb : (fieldsStr den fin out ((k, v) :: t)).length + 1 < fuel := by
            have hlen : (jsonStr den fin out (Json.obj ((k, v) :: t))).length
                = (fieldsStr den fin out ((k, v) :: t)).length + 2 := by
              simp [jsonStr]
            omega
          have h1 : '"' :: (q ++ '}' :: rest)
              = fieldsStr den fin out ((k, v) :: t) ++ '}' :: rest := by
            simp [hq]
          have hfr : keysFresh
              ((k, reVal den fin out v) :: reFields den fin out t) = true := by
            have := keysFresh_reFields den fin out ((k, v) :: t)
            rw [show reFields den fin out ((k, v) :: t)
                = (k, reVal den fin out v) :: reFields den fin out t from rfl] at this
            rw [this]
            exact hsplit.1
          rw [h0, parseVal_obj_step2 fuel '"' _ (by decide) (by decide), h1,
              ihF k v t rest hsplit.2.1 hsplit.2.2 hfb]
          simp [collapse_fresh _ hfr, reVal, reFields]
    · intro x xs rest hx hxs hfuel
      cases xs with
      | nil =>
        have h0 : itemsStr den fin out [x] ++ ']' :: rest
            = jsonStr den fin out x ++ ']' :: rest := by
          simp [itemsStr]
        have hfV : (jsonStr den fin out x).length < fuel := by
          have : (itemsStr den fin out [x]).length
              = (jsonStr den fin out x).length := by simp [itemsStr]
          omega
        rw [parseItems_step, h0,
            ihV x (']' :: rest) hx hfV (numDelim_cons ']' rest (by decide))]
        simp [skipWs_rbracket, reItems]
      | cons y t =>
        have hxs2 : jsonWF y = true ∧ itemsWF t = true := by
          simpa [itemsWF, Bool.and_eq_true] using hxs
        have h0 : itemsStr den fin out (x :: y :: t) ++ ']' :: rest
            = jsonStr den fin out x
                ++ ',' :: (itemsStr den fin out (y :: t) ++ ']' :: rest) := by
          simp [itemsStr]
        have hlen : (itemsStr den fin out (x :: y :: t)).length
            = (jsonStr den fin out x).length
                + ((itemsStr den fin out (y :: t)).length + 1) := by
          simp [itemsStr]
        have hfV : (jsonStr den fin out x).length < fuel := by omega
        have hfI : (itemsStr den fin out (y :: t)).length + 1 < fuel := by omega
        obtain ⟨c, t2, hit, hws, -⟩ := itemsStr_cons_head den fin out hout y t hxs2.1
        have h1 : skipWs (itemsStr den fin out (y :: t) ++ ']' :: rest)
            = itemsStr den fin out (y :: t) ++ ']' :: rest := by
          rw [hit]
          exact skipWs_not_ws c (t2 ++ ']' :: rest) hws
        rw [parseItems_step, h0,
            ihV x (',' :: (itemsStr den fin out (y :: t) ++ ']' :: rest)) hx hfV
              (numDelim_cons ',' _ (by decide))]
        simp [skipWs_comma, h1, ihI y t rest hxs2.1 hxs2.2 hfI, reItems]
    · intro k v kvs rest hv hkvs hfuel
      cases kvs with
      | nil =>
        have h0 : fieldsStr den fin out [(k, v)] ++ '}' :: rest
            = '"' :: (escapeStr k ++ '"' :: ':'
                :: (jsonStr den fin out v ++ '}' :: rest)) := by
          simp [fieldsStr]
        have hlen : (fieldsStr den fin out [(k, v)]).length
            = (escapeStr k).length + ((jsonStr den fin out v).length + 3) := by
          simp [fieldsStr]
          omega
        have hfV : (jsonStr den fin out v).length < fuel := by omega
        obtain ⟨cv, tv, hjv, hwsv, -⟩ := jsonStr_head den fin out hout v hv
        have h2 : skipWs (jsonStr den fin out v ++ '}' :: rest)
            = jsonStr den fin out v ++ '}' :: rest := by
          rw [hjv]
          exact skipWs_not_ws cv (tv ++ '}' :: rest) hwsv
        rw [h0, parseFields_step, parseStringBody_escStr]
        simp [skipWs_colon, h2,
              ihV v ('}' :: rest) hv hfV (numDelim_cons '}' rest (by decide)),
              skipWs_rbrace, reFields]
      | cons kv2 t =>
        obtain ⟨k2, v2⟩ := kv2
        have hkv2 : jsonWF v2 = true ∧ fieldsWF t = true := by
          simpa [fieldsWF, Bool.and_eq_true] using hkvs
        have h0 : fieldsStr den fin out ((k, v) :: (k2, v2) :: t) ++ '}' :: rest
            = '"' :: (escapeStr k ++ '"' :: ':' :: (jsonStr den fin out v
                ++ ',' :: (fieldsStr den fin out ((k2, v2) :: t) ++ '}' :: rest))) := by
          simp [fieldsStr]
        have hlen : (fieldsStr den fin out ((k, v) :: (k2, v2) :: t)).length
            = (escapeStr k).length + ((jsonStr den fin out v).length +
                ((fieldsStr den fin out ((k2, v2) :: t)).length + 4)) := by
          simp [fieldsStr]
          omega
        have hfV : (jsonStr den fin out v).length < fuel := by omega
        have hfF : (fieldsStr den fin out ((k2, v2) :: t)).length + 1 < fuel := by
          omega
        obtain ⟨cv, tv, hjv, hwsv, -⟩ := jsonStr_head den fin out hout v hv
        have h2 : skipWs (jsonStr den fin out v
              ++ ',' :: (fieldsStr den fin out ((k2, v2) :: t) ++ '}' :: rest))
            = jsonStr den fin out v
              ++ ',' :: (fieldsStr den fin out ((k2, v2) :: t) ++ '}' :: rest) := by
          rw [hjv]
          exact skipWs_not_ws cv _ hwsv
        obtain ⟨q2, hq2⟩ := fieldsStr_cons_head den fin out k2 v2 t
        have h3 : skipWs (fieldsStr den fin out ((k2, v2) :: t) ++ '}' :: rest)
            = fieldsStr den fin out ((k2, v2) :: t) ++ '}' :: rest := by
          rw [hq2]
          exact skipWs_not_ws '"' _ (by decide)
        rw [h0, parseFields_step, parseStringBody_escStr]
        simp [skipWs_colon, h2,
              ihV v (',' :: (fieldsStr den fin out ((k2, v2) :: t) ++ '}' :: rest))
                hv hfV (numDelim_cons ',' _ (by decide)),
              skipWs_comma, h3, ihF k2 v2 t rest hkv2.1 hkv2.2 hfF, reFields]

/-- `JSON.parse` of `JSON.stringify` output: every well-formed value comes
back as its re-parsed image `reVal`. -/
theorem jsonParse_jsonStr {D : Type} (den : NumTok → D) (fin : D → Bool)
    (out : D → NumTok) (hout : ∀ x, fin x = true → numWF (out x) = true)
    (v : Json) (hwf : jsonWF v = true) :
    jsonParse (jsonStr den fin out v) = some (reVal den fin out v) := by
  obtain ⟨c, t1, heq, hws, -⟩ := jsonStr_head den fin out hout v hwf
  have h1 : skipWs (jsonStr den fin out v) = jsonStr den fin out v := by
    rw [heq]
    exact skipWs_not_ws c t1 hws
  have h2 := (rtAll den fin out hout ((jsonStr den fin out v).length + 1)).1 v []
    hwf (by omega) rfl
  rw [List.append_nil] at h2
  unfold jsonParse
  rw [h1, h2]
  rfl


/-! ### The parser's outputs are well formed

Every value `jsonParse` produces satisfies `jsonWF`: number tokens fit the
grammar and object member lists carry no repeated key. -/

theorem takeWhile_all_digits (r : Chars) :
    (r.takeWhile Char.isDigit).all Char.isDigit = true := by
  rw [List.all_eq_true]
  exact fun c hc => List.mem_takeWhile_imp hc

theorem parseExpTail_wf (neg : Bool) (ip : Chars) (fp : Option Chars) (r : Chars)
    (t : NumTok) (rest : Chars) (hwf : numWF ⟨neg, ip, fp, none⟩ = true)
    (h : parseExpTail neg ip fp r = some (t, rest)) : numWF t = true := by
  simp only [numWF] at hwf
  rw [Bool.and_eq_true, Bool.and_eq_true] at hwf
  obtain ⟨⟨hip, hfp⟩, -⟩ := hwf
  simp only [parseExpTail] at h
  split at h
  · exact absurd h (by simp)
  · next hne =>
    injection h with h1
    injection h1 with hl hr
    subst hl
    simp only [numWF]
    rw [Bool.and_eq_true, Bool.and_eq_true]
    refine ⟨⟨hip, hfp⟩, ?_⟩
    rw [Bool.and_eq_true]
    exact ⟨by simpa using hne, takeWhile_all_digits _⟩

theorem parseExp_wf (neg : Bool) (ip : Chars) (fp : Option Chars) (s1 : Chars)
    (t : NumTok) (rest : Chars) (hwf : numWF ⟨neg, ip, fp, none⟩ = true)
    (h : parseExp neg ip fp s1 = some (t, rest)) : numWF t = true := by
  unfold parseExp at h
  split at h
  · exact parseExpTail_wf _ _ _ _ _ _ hwf h
  · exact parseExpTail_wf _ _ _ _ _ _ hwf h
  · injection h with h1
    injection h1 with hl hr
    subst hl
    exact hwf

theorem parseNumTail_wf (neg : Bool) (ip : Chars) (s : Chars)
    (t : NumTok) (rest : Chars) (hwf : numWF ⟨neg, ip, none, none⟩ = true)
    (h : parseNumTail neg ip s = some (t, rest)) : numWF t = true := by
  simp only [parseNumTail] at h
  split at h
  · split at h
    · exact absurd h (by simp)
    · next hne =>
      refine parseExp_wf _ _ _ _ _ _ ?_ h
      simp only [numWF] at hwf ⊢
      rw [Bool.and_eq_true, Bool.and_eq_true] at hwf
      rw [Bool.and_eq_true, Bool.and_eq_true]
      refine ⟨⟨hwf.1.1, ?_⟩, rfl⟩
      rw [Bool.and_eq_true]
      exact ⟨by simpa using hne, takeWhile_all_digits _⟩
  · exact parseExp_wf _ _ _ _ _ _ hwf h

theorem parseNum_wf (s : Chars) (t : NumTok) (rest : Chars)
    (h : parseNum s = some (t, rest)) : numWF t = true := by
  unfold parseNum at h
  split at h
  · exact absurd h (by simp)
  · next c r =>
    split at h
    · -- c = '-'
      split at h
      · exact absurd h (by simp)
      · next c1 r1 =>
        split at h
        · -- c1 = '0'
          refine parseNumTail_wf _ _ _ _ _ ?_ h
          decide
        · split at h
          · next h0 hdig =>
            refine parseNumTail_wf _ _ _ _ _ ?_ h
            simp only [numWF]
            rw [Bool.and_eq_true, Bool.and_eq_true]
            refine ⟨⟨?_, rfl⟩, rfl⟩
            cases hw : r1.takeWhile Char.isDigit with
            | nil => simpa using hdig
            | cons d ds =>
              rw [Bool.and_eq_true, Bool.and_eq_true]
              refine ⟨⟨hdig, by simpa using h0⟩, hw ▸ takeWhile_all_digits r1⟩
          · exact absurd h (by simp)
    · split at h
      · -- c = '0'
        refine parseNumTail_wf _ _ _ _ _ ?_ h
        decide
      · split at h
        · next hm h0 hdig =>
          refine parseNumTail_wf _ _ _ _ _ ?_ h
          simp only [numWF]
          rw [Bool.and_eq_true, Bool.and_eq_true]
          refine ⟨⟨?_, rfl⟩, rfl⟩
          cases hw : (‹Chars›).takeWhile Char.isDigit with
          | nil => simpa using hdig
          | cons d ds =>
            rw [Bool.and_eq_true, Bool.and_eq_true]
            refine ⟨⟨hdig, by simpa using h0⟩, hw ▸ takeWhile_all_digits _⟩
        · exact absurd h (by simp)


-- ===== insertField / collapseFields preservation =====

theorem insertField_all (o : List (Chars × Json)) (k : Chars) (v : Json)
    (p : Chars × Json → Bool) (ho : o.all p = true) (hk : p (k, v) = true) :
    (insertField o k v).all p = true := by
  induction o with
  | nil => simpa [insertField] using hk
  | cons kv t ih =>
    obtain ⟨k', v'⟩ := kv
    rw [List.all_cons, Bool.and_eq_true] at ho
    by_cases hkk : k' = k
    · simp [insertField, hkk, hk, ho.2]
    · simp [insertField, hkk, ho.1, ih ho.2]

theorem insertField_keysFresh (o : List (Chars × Json)) (k : Chars) (v : Json)
    (h : keysFresh o = true) : keysFresh (insertField o k v) = true := by
  induction o with
  | nil => simp [insertField, keysFresh]
  | cons kv t ih =>
    obtain ⟨k', v'⟩ := kv
    simp only [keysFresh, Bool.and_eq_true] at h
    by_cases hkk : k' = k
    · subst hkk
      simp only [insertField, if_pos rfl]
      simp only [keysFresh, Bool.and_eq_true]
      exact ⟨h.1, h.2⟩
    · simp only [insertField, if_neg hkk]
      simp only [keysFresh, Bool.and_eq_true]
      refine ⟨?_, ih h.2⟩
      refine insertField_all t k v _ h.1 ?_
      simpa using fun he => hkk he.symm

theorem insertField_fieldsWF (o : List (Chars × Json)) (k : Chars) (v : Json)
    (ho : fieldsWF o = true) (hv : jsonWF v = true) :
    fieldsWF (insertField o k v) = true := by
  induction o with
  | nil => simpa [insertField, fieldsWF] using hv
  | cons kv t ih =>
    obtain ⟨k', v'⟩ := kv
    simp only [fieldsWF, Bool.and_eq_true] at ho
    by_cases hkk : k' = k
    · simp only [insertField, if_pos hkk]
      simp only [fieldsWF, Bool.and_eq_true]
      exact ⟨hv, ho.2⟩
    · simp only [insertField, if_neg hkk]
      simp only [fieldsWF, Bool.and_eq_true]
      exact ⟨ho.1, ih ho.2⟩

theorem collapse_aux_wf (ms acc : List (Chars × Json))
    (hacc : keysFresh acc = true ∧ fieldsWF acc = true)
    (hms : fieldsWF ms = true) :
    keysFresh (ms.foldl (fun a kv => insertField a kv.1 kv.2) acc) = true ∧
    fieldsWF (ms.foldl (fun a kv => insertField a kv.1 kv.2) acc) = true := by
  induction ms generalizing acc with
  | nil => exact hacc
  | cons kv t ih =>
    obtain ⟨k, v⟩ := kv
    simp only [fieldsWF, Bool.and_eq_true] at hms
    simp only [List.foldl_cons]
    exact ih (insertField acc k v)
      ⟨insertField_keysFresh acc k v hacc.1, insertField_fieldsWF acc k v hacc.2 hms.1⟩
      hms.2

theorem collapse_wf (ms : List (Chars × Json)) (hms : fieldsWF ms = true) :
    keysFresh (collapseFields ms) = true ∧ fieldsWF (collapseFields ms) = true :=
  collapse_aux_wf ms [] ⟨rfl, rfl⟩ hms

-- ===== the mutual parser wf =====

theorem parseWF (fuel : Nat) :
    (∀ s v r, parseVal fuel s = some (v, r) → jsonWF v = true) ∧
    (∀ s xs r, parseItems fuel s = some (xs, r) → itemsWF xs = true) ∧
    (∀ s kvs r, parseFields fuel s = some (kvs, r) → fieldsWF kvs = true) := by
  induction fuel with
  | zero =>
    refine ⟨?_, ?_, ?_⟩
    · intro s v r h
      rw [parseVal.eq_def] at h
      exact absurd h (by simp)
    · intro s xs r h
      rw [parseItems.eq_def] at h
      exact absurd h (by simp)
    · intro s kvs r h
      rw [parseFields.eq_def] at h
      exact absurd h (by simp)
  | succ fuel ih =>
    obtain ⟨ihV, ihI, ihF⟩ := ih
    refine ⟨?_, ?_, ?_⟩
    · intro s v r h
      rw [parseVal.eq_def] at h
      split at h
      · exact absurd h (by simp)
      · rename_i fuel1 heq
        obtain rfl : fuel1 = fuel := by omega
        split at h
        · -- object
          split at h
          · injection h with h1
            injection h1 with hl hr
            subst hl
            decide
          · rw [Option.map_eq_some'] at h
            obtain ⟨p, hp, he⟩ := h
            injection he with hl hr
            subst hl
            have hfw := ihF _ _ _ hp
            have hc := collapse_wf p.1 hfw
            simp only [jsonWF, Bool.and_eq_true]
            exact ⟨hc.1, hc.2⟩
        · -- array
          split at h
          · injection h with h1
            injection h1 with hl hr
            subst hl
            decide
          · rw [Option.map_eq_some'] at h
            obtain ⟨p, hp, he⟩ := h
            injection he with hl hr
            subst hl
            simpa [jsonWF] using ihI _ _ _ hp
        · -- string
          rw [Option.map_eq_some'] at h
          obtain ⟨p, hp, he⟩ := h
          injection he with hl hr
          subst hl
          simp [jsonWF]
        · -- null
          injection h with h1
          injection h1 with hl hr
          subst hl
          decide
        · -- true
          injection h with h1
          injection h1 with hl hr
          subst hl
          decide
        · -- false
          injection h with h1
          injection h1 with hl hr
          subst hl
          decide
        · -- number
          rw [Option.map_eq_some'] at h
          obtain ⟨p, hp, he⟩ := h
          injection he with hl hr
          subst hl
          simpa [jsonWF] using parseNum_wf _ _ _ hp
    · intro s xs r h
      rw [parseItems.eq_def] at h
      split at h
      · exact absurd h (by simp)
      · rename_i fuel1 heq
        obtain rfl : fuel1 = fuel := by omega
        split at h
        · exact absurd h (by simp)
        · rename_i v1 r1 hv
          split at h
          · rw [Option.map_eq_some'] at h
            obtain ⟨p, hp, he⟩ := h
            injection he with hl hr
            subst hl
            simp only [itemsWF, Bool.and_eq_true]
            exact ⟨ihV _ _ _ hv, ihI _ _ _ hp⟩
          · injection h with h1
            injection h1 with hl hr
            subst hl
            simp only [itemsWF, Bool.and_eq_true]
            exact ⟨ihV _ _ _ hv, trivial⟩
          · exact absurd h (by simp)
    · intro s kvs r h
      rw [parseFields.eq_def] at h
      split at h
      · exact absurd h (by simp)
      · rename_i fuel1 heq
        obtain rfl : fuel1 = fuel := by omega
        split at h
        · split at h
          · exact absurd h (by simp)
          · rename_i k1 r1 hk
            split at h
            · split at h
              · exact absurd h (by simp)
              · rename_i v1 r3 hv
                split at h
                · rw [Option.map_eq_some'] at h
                  obtain ⟨p, hp, he⟩ := h
                  injection he with hl hr
                  subst hl
                  simp only [fieldsWF, Bool.and_eq_true]
                  exact ⟨ihV _ _ _ hv, ihF _ _ _ hp⟩
                · injection h with h1
                  injection h1 with hl hr
                  subst hl
                  simp only [fieldsWF, Bool.and_eq_true]
                  exact ⟨ihV _ _ _ hv, trivial⟩
                · exact absurd h (by simp)
            · exact absurd h (by simp)
        · exact absurd h (by simp)

theorem jsonParse_wf (s : Chars) (v : Json) (h : jsonParse s = some v) :
    jsonWF v = true := by
  unfold jsonParse at h
  split at h
  · next p r hp =>
    split at h
    · injection h with h1
      subst h1
      exact (parseWF _).1 _ _ _ hp
    · exact absurd h (by simp)
  · exact absurd h (by simp)

/-! ### Pipeline glue for the idempotence claim -/

theorem getField_mem (o : List (Chars × Json)) (f : Chars) (v : Json)
    (h : getField o f = some v) : (f, v) ∈ o := by
  induction o with
  | nil => simp [getField] at h
  | cons kv t ih =>
    obtain ⟨k1, v1⟩ := kv
    unfold getField at h
    split at h
    · next hk =>
      injection h with h1
      subst h1
      subst hk
      simp
    · simp [ih h]

theorem fieldsWF_mem (o : List (Chars × Json)) (f : Chars) (v : Json)
    (hm : (f, v) ∈ o) (h : fieldsWF o = true) : jsonWF v = true := by
  induction o with
  | nil => simp at hm
  | cons kv t ih =>
    obtain ⟨k1, v1⟩ := kv
    simp only [fieldsWF, Bool.and_eq_true] at h
    rcases List.mem_cons.mp hm with he | hm2
    · injection he with h1 h2
      subst h2
      exact h.1
    · exact ih hm2 h.2

theorem getField_map (g : Chars → Json) (req : List Chars) (f : Chars) (hf : f ∈ req) :
    getField (req.map (fun x => (x, g x))) f = some (g f) := by
  induction req with
  | nil => simp at hf
  | cons a t ih =>
    simp only [List.map_cons]
    unfold getField
    by_cases haf : a = f
    · subst haf
      simp
    · rw [if_neg haf]
      refine ih ?_
      rcases List.mem_cons.mp hf with he | hm
      · exact absurd he.symm haf
      · exact hm

theorem keysFresh_map (g : Chars → Json) (req : List Chars) (hnd : req.Nodup) :
    keysFresh (req.map (fun x => (x, g x))) = true := by
  induction req with
  | nil => rfl
  | cons a t ih =>
    simp only [List.map_cons, keysFresh, Bool.and_eq_true]
    rw [List.nodup_cons] at hnd
    refine ⟨?_, ih hnd.2⟩
    rw [List.all_eq_true]
    intro kv hkv
    rw [List.mem_map] at hkv
    obtain ⟨x, hx, rfl⟩ := hkv
    have hne : x ≠ a := fun he => hnd.1 (he ▸ hx)
    simpa using hne

theorem fieldsWF_of_forall (kvs : List (Chars × Json))
    (h : ∀ kv ∈ kvs, jsonWF kv.2 = true) : fieldsWF kvs = true := by
  induction kvs with
  | nil => rfl
  | cons kv t ih =>
    obtain ⟨k1, v1⟩ := kv
    simp only [fieldsWF, Bool.and_eq_true]
    exact ⟨h (k1, v1) (by simp), ih (fun kv2 hkv2 => h kv2 (by simp [hkv2]))⟩

theorem map_congr_fn (l : List Chars) (f g : Chars → Chars × Json)
    (h : ∀ a ∈ l, f a = g a) : l.map f = l.map g := by
  induction l with
  | nil => rfl
  | cons a t ih =>
    simp only [List.map_cons]
    rw [h a (by simp), ih (fun b hb => h b (by simp [hb]))]

theorem jsonSlice_exact (mid : Chars) :
    jsonSlice ('{' :: (mid ++ ['}'])) = some ('{' :: (mid ++ ['}'])) := by
  simp only [jsonSlice]
  rw [dropWhile_cons_not _ _ _ (by decide)]
  have hrev : ('{' :: (mid ++ ['}'])).reverse = '}' :: (mid.reverse ++ ['{']) := by
    simp
  rw [hrev, dropWhile_cons_not _ _ _ (by decide), ← hrev, List.reverse_reverse]
  have hlen : 2 ≤ ('{' :: (mid ++ ['}'])).length := by
    simp
  rw [if_pos hlen]

theorem jsTrim_brace (mid : Chars) :
    jsTrim ('{' :: (mid ++ ['}'])) = '{' :: (mid ++ ['}']) := by
  unfold jsTrim
  rw [dropWhile_cons_not _ _ _ (by decide)]
  have hrev : ('{' :: (mid ++ ['}'])).reverse = '}' :: (mid.reverse ++ ['{']) := by
    simp
  rw [hrev, dropWhile_cons_not _ _ _ (by decide), ← hrev, List.reverse_reverse]

theorem startsWith_fencejson_brace (mid : Chars) :
    listStartsWith (txt "```json") ('{' :: mid) = false := rfl

theorem startsWith_fence_brace (mid : Chars) :
    listStartsWith (txt "```") ('{' :: mid) = false := rfl

theorem stripCodeFences_brace (mid : Chars) :
    stripCodeFences ('{' :: mid) = '{' :: mid := by
  unfold stripCodeFences
  rw [startsWith_fencejson_brace, startsWith_fence_brace]
  simp

theorem cleanResponse_obj (mid : Chars) :
    cleanResponse ('{' :: (mid ++ ['}'])) = '{' :: (mid ++ ['}']) := by
  unfold cleanResponse
  rw [jsTrim_brace, stripCodeFences_brace]

theorem runPipeline_ok_inv (pm : Chars → Chars) (k : OpKind) (req : List Chars)
    (raw : Chars) (data : Json) (h : runPipeline pm k req raw = .ok data) :
    (∃ sub, jsonSlice (cleanResponse raw) = some sub ∧ jsonParse sub = some data) ∧
      firstMissingField k req data = none := by
  simp only [runPipeline] at h
  split at h
  · exact absurd h (by simp)
  · next sub hsub =>
    split at h
    · exact absurd h (by simp)
    · next d hd =>
      split at h
      · exact absurd h (by simp)
      · next hfmf =>
        injection h with h1
        subst h1
        exact ⟨⟨sub, hsub, hd⟩, hfmf⟩

/-- Member keys and the record's map structure commute with `reVal`. -/
theorem reFields_map {D : Type} (den : NumTok → D) (fin : D → Bool)
    (out : D → NumTok) (req : List Chars) (g : Chars → Json) :
    reFields den fin out (req.map (fun f => (f, g f)))
      = req.map (fun f => (f, reVal den fin out (g f))) := by
  induction req with
  | nil => rfl
  | cons a t ih => simp [reFields, ih]

/-- Validation is blind to re-serialization of a stable value: the two tests
of lines 157 and 294 agree on a value and on its re-parsed image. -/
theorem fieldPasses_re {D : Type} (den : NumTok → D) (fin : D → Bool)
    (out : D → NumTok) (k : OpKind) (v : Json)
    (hst : stableVal den fin out v = true) :
    fieldPasses k (some (reVal den fin out v)) = fieldPasses k (some v) := by
  cases v with
  | null => rfl
  | bool b => rfl
  | str s => rfl
  | arr xs =>
    cases k with
    | genIdea => rfl
    | evalIdea => rfl
  | obj kvs =>
    cases k with
    | genIdea => rfl
    | evalIdea => rfl
  | num t =>
    simp only [stableVal, Bool.and_eq_true, beq_iff_eq] at hst
    cases k with
    | genIdea => simp [reVal, hst.1, fieldPasses, jsTruthy, hst.2]
    | evalIdea => simp [reVal, hst.1, fieldPasses]

/-- On a stable value the re-parsed image has the same runtime denotation:
formatting a finite double and parsing it back is the identity (`hrt`). -/
theorem denReAll {D : Type} (den : NumTok → D) (fin : D → Bool) (out : D → NumTok)
    (hrt : ∀ x, fin x = true → den (out x) = x) (n : Nat) :
    (∀ v, sizeOf v ≤ n → stableVal den fin out v = true →
        denVal den (reVal den fin out v) = denVal den v) ∧
    (∀ xs, sizeOf xs ≤ n → stableItems den fin out xs = true →
        denItems den (reItems den fin out xs) = denItems den xs) ∧
    (∀ ms, sizeOf ms ≤ n → stableFields den fin out ms = true →
        denFields den (reFields den fin out ms) = denFields den ms) := by
  induction n with
  | zero =>
    refine ⟨?_, ?_, ?_⟩
    · intro v h _
      exfalso
      cases v <;> simp at h
    · intro xs h _
      exfalso
      cases xs <;> simp at h
    · intro ms h _
      exfalso
      cases ms <;> simp at h
  | succ n ih =>
    obtain ⟨ihV, ihI, ihF⟩ := ih
    refine ⟨?_, ?_, ?_⟩
    · intro v hsz hst
      cases v with
      | null => rfl
      | bool b => rfl
      | str s => rfl
      | num t =>
        simp only [stableVal, Bool.and_eq_true, beq_iff_eq] at hst
        simp [reVal, hst.1, denVal, hrt (den t) hst.1]
      | arr xs =>
        have hsz2 : sizeOf xs ≤ n := by
          simp at hsz
          omega
        have hst2 : stableItems den fin out xs = true := by
          simpa [stableVal] using hst
        simp only [reVal, denVal]
        rw [ihI xs hsz2 hst2]
      | obj kvs =>
        have hsz2 : sizeOf kvs ≤ n := by
          simp at hsz
          omega
        have hst2 : stableFields den fin out kvs = true := by
          simpa [stableVal] using hst
        simp only [reVal, denVal]
        rw [ihF kvs hsz2 hst2]
    · intro xs hsz hst
      cases xs with
      | nil => rfl
      | cons x t =>
        simp only [stableItems, Bool.and_eq_true] at hst
        have h1 : sizeOf x ≤ n ∧ sizeOf t ≤ n := by
          simp at hsz
          omega
        simp only [reItems, denItems]
        rw [ihV x h1.1 hst.1, ihI t h1.2 hst.2]
    · intro ms hsz hst
      cases ms with
      | nil => rfl
      | cons kv t =>
        obtain ⟨k, v⟩ := kv
        simp only [stableFields, Bool.and_eq_true] at hst
        have h1 : sizeOf v ≤ n ∧ sizeOf t ≤ n := by
          simp at hsz
          omega
        simp only [reFields, denFields]
        rw [ihV v h1.1 hst.1, ihF t h1.2 hst.2]

/-- `denReAll` across a narrowed record. -/
theorem denFields_map_re {D : Type} (den : NumTok → D) (fin : D → Bool)
    (out : D → NumTok) (hrt : ∀ x, fin x = true → den (out x) = x)
    (req : List Chars) (g : Chars → Json)
    (hst : ∀ f ∈ req, stableVal den fin out (g f) = true) :
    denFields den (req.map (fun f => (f, reVal den fin out (g f))))
      = denFields den (req.map (fun f => (f, g f))) := by
  induction req with
  | nil => rfl
  | cons a t ih =>
    simp only [List.map_cons, denFields]
    rw [(denReAll den fin out hrt (sizeOf (g a))).1 (g a) (le_refl _) (hst a (by simp)),
        ih (fun f hf => hst f (by simp [hf]))]

theorem runPipeline_serialized {D : Type} (den : NumTok → D) (fin : D → Bool)
    (out : D → NumTok) (hout : ∀ x, fin x = true → numWF (out x) = true)
    (pm : Chars → Chars) (k : OpKind) (req : List Chars)
    (R : List (Chars × Json)) (hwf : jsonWF (Json.obj R) = true)
    (hval : firstMissingField k req (Json.obj (reFields den fin out R)) = none) :
    runPipeline pm k req (jsonStr den fin out (Json.obj R))
      = .ok (Json.obj (reFields den fin out R)) := by
  have hstr : jsonStr den fin out (Json.obj R)
      = '{' :: (fieldsStr den fin out R ++ ['}']) := by
    simp [jsonStr]
  have h1 : cleanResponse (jsonStr den fin out (Json.obj R))
      = jsonStr den fin out (Json.obj R) := by
    rw [hstr]
    exact cleanResponse_obj (fieldsStr den fin out R)
  have h2 : jsonSlice (jsonStr den fin out (Json.obj R))
      = some (jsonStr den fin out (Json.obj R)) := by
    rw [hstr]
    exact jsonSlice_exact (fieldsStr den fin out R)
  have h3 : jsonParse (jsonStr den fin out (Json.obj R))
      = some (Json.obj (reFields den fin out R)) :=
    jsonParse_jsonStr den fin out hout (Json.obj R) hwf
  simp only [runPipeline]
  rw [h1]
  simp only [h2, h3, hval]

/-- **C9** (amended).  Idempotence of the parse-and-validate pipeline holds
up to numeral formatting, and only for records whose numbers the engine's
number semantics keeps stable.  `den`/`fin`/`out` stand for the engine's
numeral-to-double conversion, finiteness test and `Number::toString`
formatting of a finite double (`hrt` is ECMAScript's round-trip law;
binary64 arithmetic itself is outside the model); `JSON.stringify` emits
`null` for a non-finite stored value.  Whenever `parseContract` succeeds on
raw text with record `R` over a duplicate-free required-field list, and
every numeral stored in `R` denotes a finite, zero-stable double, the re-run
on `R`'s serialization succeeds with a record carrying the same keys in the
same order and the same runtime (double-valued) denotations.  The
unrestricted original claim is false of the program — see `claim_C9_cex`. -/
theorem claim_C9 {D : Type} (den : NumTok → D) (fin : D → Bool) (out : D → NumTok)
    (hrt : ∀ x, fin x = true → den (out x) = x)
    (hout : ∀ x, fin x = true → numWF (out x) = true)
    (pm pm2 : Chars → Chars) (k : OpKind) (req : List Chars) (raw : Chars)
    (R : List (Chars × Json)) (hnd : req.Nodup)
    (hok : parseContract pm k req raw = .ok R)
    (hst : ∀ kv ∈ R, stableVal den fin out kv.2 = true) :
    ∃ R2, parseContract pm2 k req (jsonStr den fin out (Json.obj R)) = .ok R2 ∧
      denFields den R2 = denFields den R := by
  unfold parseContract at hok
  cases hrp : runPipeline pm k req raw with
  | error e =>
    rw [hrp] at hok
    exact absurd hok (by simp [Except.map])
  | ok data =>
    rw [hrp] at hok
    simp only [Except.map] at hok
    injection hok with hR
    obtain ⟨⟨sub, hsub, hparse⟩, hfmf⟩ := runPipeline_ok_inv pm k req raw data hrp
    have hdwf : jsonWF data = true := jsonParse_wf sub data hparse
    have hpass := (firstMissingField_none_iff k req data).mp hfmf
    have hsome : ∀ f ∈ req, getFieldJ data f = some ((getFieldJ data f).getD Json.null) := by
      intro f hf
      cases hg : getFieldJ data f with
      | none =>
        have := hpass f hf
        rw [hg] at this
        exact absurd this (by simp [fieldPasses])
      | some v => rfl
    have hRmap : R = req.map (fun f => (f, (getFieldJ data f).getD Json.null)) := hR.symm
    have hstf : ∀ f ∈ req,
        stableVal den fin out ((getFieldJ data f).getD Json.null) = true := by
      intro f hf
      refine hst (f, (getFieldJ data f).getD Json.null) ?_
      rw [hRmap]
      exact List.mem_map.mpr ⟨f, hf, rfl⟩
    have hwfR : jsonWF (Json.obj R) = true := by
      rw [hRmap]
      simp only [jsonWF, Bool.and_eq_true]
      refine ⟨keysFresh_map _ req hnd, ?_⟩
      refine fieldsWF_of_forall _ ?_
      intro kv hkv
      rw [List.mem_map] at hkv
      obtain ⟨f, hf, hkveq⟩ := hkv
      subst hkveq
      obtain ⟨o, rfl⟩ : ∃ o, data = Json.obj o := by
        cases hd : data <;> rw [hd] at hsome
        case obj o => exact ⟨o, rfl⟩
        all_goals exact absurd (hsome f hf) (by simp [getFieldJ])
      have hmem := getField_mem o f _ (hsome f hf)
      have hfw : fieldsWF o = true := by
        simp only [jsonWF, Bool.and_eq_true] at hdwf
        exact hdwf.2
      exact fieldsWF_mem o f _ hmem hfw
    have hgetRe : ∀ f ∈ req, getFieldJ (Json.obj (reFields den fin out R)) f
        = some (reVal den fin out ((getFieldJ data f).getD Json.null)) := by
      intro f hf
      show getField (reFields den fin out R) f = _
      rw [hRmap, reFields_map]
      exact getField_map _ req f hf
    have hval2 : firstMissingField k req
        (Json.obj (reFields den fin out R)) = none := by
      rw [firstMissingField_none_iff]
      intro f hf
      rw [hgetRe f hf, fieldPasses_re den fin out k _ (hstf f hf), ← hsome f hf]
      exact hpass f hf
    refine ⟨req.map (fun f =>
        (f, reVal den fin out ((getFieldJ data f).getD Json.null))), ?_, ?_⟩
    · unfold parseContract
      rw [runPipeline_serialized den fin out hout pm2 k req R hwfR hval2]
      simp only [Except.map]
      rw [Except.ok.injEq]
      refine map_congr_fn req _ _ ?_
      intro f hf
      rw [hgetRe f hf]
      rfl
    · rw [hRmap]
      exact denFields_map_re den fin out hrt req _ hstf

/-- The demonstration semantics obeys the round-trip law: formatting a
finite value and re-reading the numeral gives the value back. -/
theorem demo_rt : ∀ x, demoFin x = true → demoDen (demoOut x) = x := by
  intro x hx
  cases x with
  | none => simp [demoFin] at hx
  | some p =>
    obtain ⟨t, ht⟩ := p
    simp only [demoOut]
    unfold demoDen
    rw [dif_pos ht]

/-- The demonstration semantics formats finite values as well-formed
numerals. -/
theorem demo_out_wf : ∀ x, demoFin x = true → numWF (demoOut x) = true := by
  intro x hx
  cases x with
  | none => simp [demoFin] at hx
  | some p =>
    obtain ⟨t, ht⟩ := p
    rw [Bool.and_eq_true] at ht
    exact ht.1

/-- Counterexample to C9 as originally stated, at a number semantics obeying
the same laws (`demo_rt`, `demo_out_wf`) in which the numeral `1e999`
denotes a non-finite double — as in the engine, where it overflows to
`Infinity`.  The pipeline accepts `\x7b"a":1e999\x7d`; its record
re-serializes to `\x7b"a":null\x7d`, because `JSON.stringify` writes `null`
for a non-finite number; and the re-run fails with the missing-field error.
Re-running `parseContract` on its own re-serialized output therefore does
not, in general, yield an equivalent record. -/
theorem claim_C9_cex :
    (∀ x, demoFin x = true → demoDen (demoOut x) = x) ∧
    (∀ x, demoFin x = true → numWF (demoOut x) = true) ∧
    parseContract pmStub .evalIdea [txt "a"] (txt "\x7b\"a\":1e999\x7d")
      = .ok [(txt "a", Json.num tok1e999)] ∧
    jsonStr demoDen demoFin demoOut (Json.obj [(txt "a", Json.num tok1e999)])
      = txt "\x7b\"a\":null\x7d" ∧
    parseContract pmStub .evalIdea [txt "a"] (txt "\x7b\"a\":null\x7d")
      = .error (.missingField (txt "a") (missingFieldMsg .evalIdea (txt "a"))) :=
  ⟨demo_rt, demo_out_wf, rfl, rfl, rfl⟩

/-- Witness for C9: a numeral-free record under the demonstration number
semantics round-trips to a denotation-equal record. -/
theorem claim_C9_witness :
    ∃ R2, parseContract pmStub .evalIdea [txt "a"]
        (jsonStr demoDen demoFin demoOut (Json.obj [(txt "a", Json.bool true)]))
      = .ok R2 ∧
      denFields demoDen R2 = denFields demoDen [(txt "a", Json.bool true)] :=
  claim_C9 demoDen demoFin demoOut demo_rt demo_out_wf pmStub pmStub .evalIdea
    [txt "a"] (txt "\x7b\"a\":true\x7d") [(txt "a", Json.bool true)]
    (by decide) rfl (by decide)

end App
